import Mathlib

set_option maxHeartbeats 1000000
set_option maxRecDepth 4000

/-!
Shallow embedding of the folderly backend (`src/backend/main.mo`).

Names are modelled as `List Char` (the source works on `Text` /
`[Char]` arrays), per-tenant `Map.Map<Nat, V>` collections as
association lists sorted ascending by key (the iteration order of the
Motoko ordered map), and traps as `Except Err` results paired with the
state threaded exactly in source order, so "no write before a trap" is
visible in the definitions.
-/

namespace Folderly

/-- ASCII fragment of `Text.toLower` applied to one character. -/
def lowerChar (c : Char) : Char :=
  if 65 ≤ c.toNat ∧ c.toNat ≤ 90 then Char.ofNat (c.toNat + 32) else c

/-- `Text.toLower` on a name. -/
def lower (s : List Char) : List Char := s.map lowerChar

/-- `namesEqual` from the source: case-insensitive name equality. -/
def NamesEq (a b : List Char) : Prop := lower a = lower b

instance (a b : List Char) : Decidable (NamesEq a b) :=
  inferInstanceAs (Decidable (lower a = lower b))

/-- Character at index `i` (in-bounds wherever the source indexes). -/
def gc (l : List Char) (i : Nat) : Char := (l[i]?).getD ' '

/-- `findOpenParen`: scan backwards from `pos` for `'('`; the source
    returns `null` at position 0 without examining it. -/
def findOpenParen (chars : List Char) : Nat → Option Nat
  | 0 => none
  | pos + 1 => if gc chars (pos + 1) = '(' then some (pos + 1) else findOpenParen chars pos

/-- The source's digit test: not (`c < '0' or c > '9'`), i.e. the code
    point lies between `'0' = 48` and `'9' = 57`. -/
def isDigitC (c : Char) : Bool := decide (48 ≤ c.toNat ∧ c.toNat ≤ 57)

/-- The source's left-to-right accumulation `num := num * 10 + (c - 48)`. -/
def digitsToNat (l : List Char) : Nat := l.foldl (fun n c => n * 10 + (c.toNat - 48)) 0

/-- `parseNameSuffix`: parse `"name (2)"` into `("name", 2)`, anything
    not of that exact shape into `(name, 0)`. -/
def parseNameSuffix (name : List Char) : List Char × Nat :=
  let len := name.length
  if len < 5 ∨ gc name (len - 1) ≠ ')' then (name, 0)
  else match findOpenParen name (len - 2) with
    | none => (name, 0)
    | some pStart =>
      if pStart = 0 ∨ gc name (pStart - 1) ≠ ' ' then (name, 0)
      else
        let numStart := pStart + 1
        let numEnd := len - 1
        if numStart ≥ numEnd then (name, 0)
        else
          let digits := (name.drop numStart).take (numEnd - numStart)
          if digits.all isDigitC then (name.take (pStart - 1), digitsToNat digits)
          else (name, 0)

/-- Index of the last `'.'`, scanning left to right as the source does. -/
def lastDotIdx (name : List Char) : Option Nat :=
  (List.range name.length).foldl (fun acc i => if gc name i = '.' then some i else acc) none

/-- `parseFileNameSuffix`: `"photo (1).jpg"` into `("photo", "jpg", 1)`;
    a leading dot means no extension. -/
def parseFileNameSuffix (name : List Char) : List Char × List Char × Nat :=
  match lastDotIdx name with
  | none =>
    let p := parseNameSuffix name
    (p.1, [], p.2)
  | some dotPos =>
    if dotPos = 0 then
      let p := parseNameSuffix name
      (p.1, [], p.2)
    else
      let baseWithSuffix := name.take dotPos
      let ext := name.drop (dotPos + 1)
      let p := parseNameSuffix baseWithSuffix
      (p.1, ext, p.2)

/-- Decimal digits of `n`, as `Nat.toText` produces them. -/
def digitChar (n : Nat) : Char := Char.ofNat (48 + n)

def natDigitsGo : Nat → Nat → List Char
  | 0, _ => []
  | fuel + 1, n =>
    if n < 10 then [digitChar n]
    else natDigitsGo fuel (n / 10) ++ [digitChar (n % 10)]

def natDigits (n : Nat) : List Char := natDigitsGo (n + 1) n

/-- Substring test used by `Text.contains` with a `#text` pattern. -/
def startsWithL : List Char → List Char → Bool
  | _, [] => true
  | [], _ :: _ => false
  | h :: hs, n :: ns => h == n && startsWithL hs ns

def containsSub : List Char → List Char → Bool
  | [], needle => startsWithL [] needle
  | c :: t, needle =>
    if startsWithL (c :: t) needle then true else containsSub t needle

/-- `textContainsIgnoreCase` from the source. -/
def textContainsIgnoreCase (hay needle : List Char) : Bool :=
  containsSub (lower hay) (lower needle)

-- Data model

structure Folder where
  id : Nat
  name : List Char
  parentId : Option Nat
  createdDate : Int
  modifiedDate : Int
deriving DecidableEq

structure FileMetadata where
  id : Nat
  name : List Char
  description : List Char
  tagIds : List Nat
  folderId : Option Nat
  size : Nat
  uploadDate : Int
  modifiedDate : Int
  fileType : List Char
  blob : Nat
deriving DecidableEq

structure Tag where
  id : Nat
  name : List Char
  color : List Char
deriving DecidableEq

/-- `Map.Map<Nat, V>`: association list sorted ascending by key. -/
abbrev M (V : Type) := List (Nat × V)

def mget {V : Type} : M V → Nat → Option V
  | [], _ => none
  | p :: r, k => if k = p.1 then some p.2 else mget r k

def mContains {V : Type} (m : M V) (k : Nat) : Bool := (mget m k).isSome

def mAdd {V : Type} : M V → Nat → V → M V
  | [], k, v => [(k, v)]
  | p :: r, k, v =>
    if k < p.1 then (k, v) :: p :: r
    else if k = p.1 then (k, v) :: r
    else p :: mAdd r k v

def mRemove {V : Type} (m : M V) (k : Nat) : M V := m.filter (fun p => decide (p.1 ≠ k))

def mValues {V : Type} (m : M V) : List V := m.map (fun p => p.2)

-- Name resolvers

/-- Sibling test inlined in both loops of `getUniqueFolderName`:
    not excluded, and in the target container. -/
def isSibFolder (parentId : Option Nat) (excludeId : Option Nat) (f : Folder) : Bool :=
  (match excludeId with
   | none => true
   | some e => decide (¬ f.id = e)) && decide (f.parentId = parentId)

/-- Body of the max-suffix loop of `getUniqueFolderName`. -/
def folderSuffixStep (baseName : List Char) (m : Nat) (f : Folder) : Nat :=
  let pr := parseNameSuffix f.name
  let m1 := if NamesEq pr.1 baseName ∧ pr.2 ≥ m then pr.2 + 1 else m
  if NamesEq f.name baseName ∧ m1 = 0 then 1 else m1

/-- `getUniqueFolderName` (the source's two loops over all folders with
    the sibling guard inlined appear here as loops over the filtered
    sibling list; the guard makes non-siblings no-ops). -/
def getUniqueFolderName (folders : List Folder) (parentId : Option Nat)
    (desiredName : List Char) (excludeId : Option Nat) : List Char :=
  let sibs := folders.filter (isSibFolder parentId excludeId)
  if sibs.any (fun f => decide (NamesEq f.name desiredName)) then
    let baseName := (parseNameSuffix desiredName).1
    let m := sibs.foldl (folderSuffixStep baseName) 0
    baseName ++ ' ' :: '(' :: (natDigits m ++ [')'])
  else desiredName

def isSibFile (folderId : Option Nat) (excludeId : Option Nat) (f : FileMetadata) : Bool :=
  (match excludeId with
   | none => true
   | some e => decide (¬ f.id = e)) && decide (f.folderId = folderId)

/-- The `fullBase` reassembly inside `getUniqueFileName`'s loop. -/
def fileFullBase (baseName extName : List Char) : List Char :=
  if extName = [] then baseName else baseName ++ '.' :: extName

/-- Body of the max-suffix loop of `getUniqueFileName`. -/
def fileSuffixStep (baseName extName : List Char) (m : Nat) (f : FileMetadata) : Nat :=
  let pr := parseFileNameSuffix f.name
  let m1 :=
    if NamesEq pr.1 baseName ∧ NamesEq pr.2.1 extName ∧ pr.2.2 ≥ m then pr.2.2 + 1 else m
  if NamesEq f.name (fileFullBase baseName extName) ∧ m1 = 0 then 1 else m1

/-- `getUniqueFileName`. -/
def getUniqueFileName (files : List FileMetadata) (folderId : Option Nat)
    (desiredName : List Char) (excludeId : Option Nat) : List Char :=
  let sibs := files.filter (isSibFile folderId excludeId)
  if sibs.any (fun f => decide (NamesEq f.name desiredName)) then
    let p := parseFileNameSuffix desiredName
    let m := sibs.foldl (fileSuffixStep p.1 p.2.1) 0
    if p.2.1 = [] then p.1 ++ ' ' :: '(' :: (natDigits m ++ [')'])
    else p.1 ++ ' ' :: '(' :: (natDigits m ++ [')', '.']) ++ p.2.1
  else desiredName

-- Tenant state and operations

/-- One tenant's slice of the per-user maps, plus its id counters
    (`none` models an absent counter entry, read as 1). -/
structure TenantState where
  folders : M Folder
  files : M FileMetadata
  tags : M Tag
  nextFileId : Option Nat
  nextFolderId : Option Nat
  nextTagId : Option Nat
deriving DecidableEq

def emptyTenant : TenantState :=
  { folders := [], files := [], tags := [],
    nextFileId := none, nextFolderId := none, nextTagId := none }

/-- The trap sites of the source, one constructor per message. -/
inductive Err where
  | folderNotFound
  | fileNotFound
  | tagNotFound
  | emptyName
  | moveIntoSelf
  | moveIntoDescendant
  | depthExceeded
deriving DecidableEq

def isErr {α : Type} : Except Err α → Bool
  | .error _ => true
  | .ok _ => false

instance {α β : Type} [DecidableEq α] [DecidableEq β] : DecidableEq (Except α β)
  | .error a, .error b =>
    if h : a = b then .isTrue (by rw [h])
    else .isFalse (by intro hh; injection hh; contradiction)
  | .error _, .ok _ => .isFalse (by intro h; cases h)
  | .ok _, .error _ => .isFalse (by intro h; cases h)
  | .ok a, .ok b =>
    if h : a = b then .isTrue (by rw [h])
    else .isFalse (by intro hh; injection hh; contradiction)

def genFileId (s : TenantState) : Nat × TenantState :=
  let i := s.nextFileId.getD 1
  (i, { s with nextFileId := some (i + 1) })

def genFolderId (s : TenantState) : Nat × TenantState :=
  let i := s.nextFolderId.getD 1
  (i, { s with nextFolderId := some (i + 1) })

def genTagId (s : TenantState) : Nat × TenantState :=
  let i := s.nextTagId.getD 1
  (i, { s with nextTagId := some (i + 1) })

/-- `assertFolderExists` succeeds on `none` and on present ids. -/
def folderExistsOpt (s : TenantState) (folderId : Option Nat) : Bool :=
  match folderId with
  | none => true
  | some i => mContains s.folders i

/-- `assertTagsExist` (the trap on the first missing tag id is the same
    error for every position). -/
def tagsExist (s : TenantState) (tagIds : List Nat) : Bool :=
  tagIds.all (fun t => mContains s.tags t)

def maxFolderDepth : Nat := 100

/-- `checkAncestor`, with the source's up-counting `depth` replaced by
    the remaining budget `maxFolderDepth - depth`: budget 0 is exactly
    the source's `depth >= maxFolderDepth` trap. -/
def checkAncestorGo (folders : M Folder) (ancestorId : Nat) :
    Option Nat → Nat → Except Err Bool
  | _, 0 => .error .depthExceeded
  | none, _ + 1 => .ok false
  | some i, fuel + 1 =>
    if i = ancestorId then .ok true
    else match mget folders i with
      | none => .ok false
      | some folder => checkAncestorGo folders ancestorId folder.parentId fuel

/-- `checkAncestor`: walk `parentId` links upwards, trapping once the
    walk reaches the depth cap. -/
def checkAncestor (folders : M Folder) (ancestorId : Nat)
    (currentId : Option Nat) (depth : Nat) : Except Err Bool :=
  checkAncestorGo folders ancestorId currentId (maxFolderDepth - depth)

def isAncestor (s : TenantState) (ancestorId descendantId : Nat) : Except Err Bool :=
  checkAncestor s.folders ancestorId (some descendantId) 0

-- Folder operations

def createFolder (s : TenantState) (name : List Char) (parentId : Option Nat)
    (now : Int) : Except Err Folder × TenantState :=
  if folderExistsOpt s parentId = false then (.error .folderNotFound, s)
  else if name = [] then (.error .emptyName, s)
  else
    let uniqueName := getUniqueFolderName (mValues s.folders) parentId name none
    let r := genFolderId s
    let folder : Folder :=
      { id := r.1, name := uniqueName, parentId := parentId,
        createdDate := now, modifiedDate := now }
    (.ok folder, { r.2 with folders := mAdd r.2.folders r.1 folder })

def renameFolder (s : TenantState) (i : Nat) (newName : List Char)
    (now : Int) : Except Err Folder × TenantState :=
  if newName = [] then (.error .emptyName, s)
  else match mget s.folders i with
    | none => (.error .folderNotFound, s)
    | some folder =>
      let uniqueName := getUniqueFolderName (mValues s.folders) folder.parentId newName (some i)
      let updated : Folder :=
        { id := folder.id, name := uniqueName, parentId := folder.parentId,
          createdDate := folder.createdDate, modifiedDate := now }
      (.ok updated, { s with folders := mAdd (mRemove s.folders i) i updated })

def moveFolder (s : TenantState) (i : Nat) (newParentId : Option Nat)
    (now : Int) : Except Err Folder × TenantState :=
  if folderExistsOpt s newParentId = false then (.error .folderNotFound, s)
  else
    let guard : Except Err Unit :=
      match newParentId with
      | none => .ok ()
      | some parentId =>
        if i = parentId then .error .moveIntoSelf
        else match isAncestor s i parentId with
          | .error e => .error e
          | .ok true => .error .moveIntoDescendant
          | .ok false => .ok ()
    match guard with
    | .error e => (.error e, s)
    | .ok _ =>
      match mget s.folders i with
      | none => (.error .folderNotFound, s)
      | some folder =>
        let uniqueName := getUniqueFolderName (mValues s.folders) newParentId folder.name (some i)
        let updated : Folder :=
          { id := folder.id, name := uniqueName, parentId := newParentId,
            createdDate := folder.createdDate, modifiedDate := now }
        (.ok updated, { s with folders := mAdd (mRemove s.folders i) i updated })

-- Subtree collection (the fixpoint loops of `deleteFolder` and
-- `getAllFilesInFolder`; `ir` is `includeRoot`, which is constant
-- `false` in `deleteFolder`'s loop, whose `null` branch does nothing).

def passStep (ir : Bool) (S : List Nat) (f : Folder) : List Nat :=
  match f.parentId with
  | some p => if p ∈ S ∧ ¬ f.id ∈ S then S ++ [f.id] else S
  | none => if ir = true ∧ ¬ f.id ∈ S then S ++ [f.id] else S

def closurePass (ir : Bool) (fs : List Folder) (S : List Nat) : List Nat :=
  fs.foldl (passStep ir) S

def closureIter (ir : Bool) (fs : List Folder) : Nat → List Nat → List Nat
  | 0, S => S
  | fuel + 1, S =>
    let S2 := closurePass ir fs S
    if S2 = S then S else closureIter ir fs fuel S2

/-- The `folderIdsToDelete` set of `deleteFolder` (root never added). -/
def subtreeClosure (fs : List Folder) (root : Nat) : List Nat :=
  closureIter false fs (fs.length + 1) [root]

/-- The `folderIdSet` of `getAllFilesInFolder(none)`. -/
def rootClosure (fs : List Folder) : List Nat :=
  closureIter true fs (fs.length + 1) []

def deleteFolder (s : TenantState) (i : Nat) : Except Err Unit × TenantState :=
  if mContains s.folders i = false then (.error .folderNotFound, s)
  else
    let dels := subtreeClosure (mValues s.folders) i
    let fileIdsToDelete :=
      ((mValues s.files).filter (fun f =>
        match f.folderId with
        | some g => decide (g ∈ dels)
        | none => false)).map (fun f => f.id)
    let files2 := fileIdsToDelete.foldl mRemove s.files
    let folders2 := dels.foldl mRemove s.folders
    (.ok (), { s with files := files2, folders := folders2 })

def getAllFolders (s : TenantState) : List Folder := mValues s.folders

-- File operations

def uploadFile (s : TenantState) (name description : List Char) (tagIds : List Nat)
    (folderId : Option Nat) (size : Nat) (fileType : List Char) (blob : Nat)
    (now : Int) : Except Err FileMetadata × TenantState :=
  if folderExistsOpt s folderId = false then (.error .folderNotFound, s)
  else if tagsExist s tagIds = false then (.error .tagNotFound, s)
  else if name = [] then (.error .emptyName, s)
  else
    let uniqueName := getUniqueFileName (mValues s.files) folderId name none
    let r := genFileId s
    let metadata : FileMetadata :=
      { id := r.1, name := uniqueName, description := description, tagIds := tagIds,
        folderId := folderId, size := size, uploadDate := now, modifiedDate := now,
        fileType := fileType, blob := blob }
    (.ok metadata, { r.2 with files := mAdd r.2.files r.1 metadata })

def updateFile (s : TenantState) (i : Nat) (name description : List Char)
    (tagIds : List Nat) (now : Int) : Except Err FileMetadata × TenantState :=
  if tagsExist s tagIds = false then (.error .tagNotFound, s)
  else if name = [] then (.error .emptyName, s)
  else match mget s.files i with
    | none => (.error .fileNotFound, s)
    | some metadata =>
      let uniqueName := getUniqueFileName (mValues s.files) metadata.folderId name (some i)
      let updated : FileMetadata :=
        { id := metadata.id, name := uniqueName, description := description,
          tagIds := tagIds, folderId := metadata.folderId, size := metadata.size,
          uploadDate := metadata.uploadDate, modifiedDate := now,
          fileType := metadata.fileType, blob := metadata.blob }
      (.ok updated, { s with files := mAdd (mRemove s.files i) i updated })

def moveFile (s : TenantState) (i : Nat) (newFolderId : Option Nat)
    (now : Int) : Except Err FileMetadata × TenantState :=
  if folderExistsOpt s newFolderId = false then (.error .folderNotFound, s)
  else match mget s.files i with
    | none => (.error .fileNotFound, s)
    | some metadata =>
      let uniqueName := getUniqueFileName (mValues s.files) newFolderId metadata.name (some i)
      let updated : FileMetadata :=
        { id := metadata.id, name := uniqueName, description := metadata.description,
          tagIds := metadata.tagIds, folderId := newFolderId, size := metadata.size,
          uploadDate := metadata.uploadDate, modifiedDate := now,
          fileType := metadata.fileType, blob := metadata.blob }
      (.ok updated, { s with files := mAdd (mRemove s.files i) i updated })

def deleteFile (s : TenantState) (i : Nat) : Except Err Unit × TenantState :=
  if mContains s.files i = false then (.error .fileNotFound, s)
  else (.ok (), { s with files := mRemove s.files i })

def getAllFiles (s : TenantState) : List FileMetadata := mValues s.files

-- Search

def searchFilesWithTags (s : TenantState) (searchTerm : List Char)
    (filterTagIds : List Nat) : List FileMetadata :=
  let hasSearch := searchTerm ≠ []
  let hasTags := filterTagIds.length > 0
  if ¬ hasSearch ∧ ¬ hasTags then mValues s.files
  else
    (mValues s.files).filter (fun f =>
      let matchesSearch :=
        if searchTerm = [] then true
        else
          textContainsIgnoreCase f.name searchTerm ||
          textContainsIgnoreCase f.description searchTerm ||
          f.tagIds.any (fun tagId =>
            match mget s.tags tagId with
            | none => false
            | some tag => textContainsIgnoreCase tag.name searchTerm)
      let matchesTags :=
        if filterTagIds = [] then true
        else filterTagIds.any (fun ft => f.tagIds.any (fun x => x == ft))
      matchesSearch && matchesTags)

-- Tag operations

def createTag (s : TenantState) (name color : List Char) : Except Err Tag × TenantState :=
  if name = [] then (.error .emptyName, s)
  else
    let r := genTagId s
    let tag : Tag := { id := r.1, name := name, color := color }
    (.ok tag, { r.2 with tags := mAdd r.2.tags r.1 tag })

def updateTag (s : TenantState) (i : Nat) (name color : List Char) :
    Except Err Tag × TenantState :=
  if name = [] then (.error .emptyName, s)
  else match mget s.tags i with
    | none => (.error .tagNotFound, s)
    | some _ =>
      let updated : Tag := { id := i, name := name, color := color }
      (.ok updated, { s with tags := mAdd (mRemove s.tags i) i updated })

/-- Rewrite of one file in `deleteTag`'s cascade loop. -/
def deleteTagStep (tid : Nat) (m : M FileMetadata) (file : FileMetadata) : M FileMetadata :=
  if file.tagIds.any (fun t => t == tid) then
    let newTagIds := file.tagIds.filter (fun t => decide (¬ t = tid))
    let updated : FileMetadata :=
      { id := file.id, name := file.name, description := file.description,
        tagIds := newTagIds, folderId := file.folderId, size := file.size,
        uploadDate := file.uploadDate, modifiedDate := file.modifiedDate,
        fileType := file.fileType, blob := file.blob }
    mAdd (mRemove m file.id) file.id updated
  else m

def deleteTag (s : TenantState) (i : Nat) : Except Err Unit × TenantState :=
  if mContains s.tags i = false then (.error .tagNotFound, s)
  else
    let files2 := (mValues s.files).foldl (deleteTagStep i) s.files
    (.ok (), { s with files := files2, tags := mRemove s.tags i })

-- Bulk read

def getAllFilesInFolder (s : TenantState) (folderId : Option Nat) : List FileMetadata :=
  let includeRoot := folderId.isNone
  let seed : List Nat :=
    match folderId with
    | none => []
    | some i => [i]
  let folderIdSet := closureIter includeRoot (mValues s.folders) (mValues s.folders).length.succ seed
  (mValues s.files).filter (fun f =>
    match f.folderId with
    | none => includeRoot
    | some i => decide (i ∈ folderIdSet))

/-! ### Character-level lemmas -/

theorem char_eq_iff_toNat {c d : Char} : c = d ↔ c.toNat = d.toNat := by
  constructor
  · intro h; rw [h]
  · intro h
    exact Char.eq_of_val_eq (UInt32.toNat.inj h)

theorem toNat_lowerChar (c : Char) :
    (lowerChar c).toNat =
      if 65 ≤ c.toNat ∧ c.toNat ≤ 90 then c.toNat + 32 else c.toNat := by
  unfold lowerChar
  split
  · rename_i h
    unfold Char.ofNat
    rw [dif_pos (Or.inl (by omega))]
    rfl
  · rfl

theorem lowerChar_eq_self (c : Char) (h : ¬(65 ≤ c.toNat ∧ c.toNat ≤ 90)) :
    lowerChar c = c := if_neg h

/-- For a target character that is neither an ASCII capital nor an ASCII
    lower-case letter (digits, space, parens, dot, …), lower-casing
    neither produces nor destroys it. -/
theorem lowerChar_special_iff (c d : Char)
    (hd1 : ¬(65 ≤ d.toNat ∧ d.toNat ≤ 90))
    (hd2 : ¬(97 ≤ d.toNat ∧ d.toNat ≤ 122)) :
    lowerChar c = d ↔ c = d := by
  constructor
  · intro h
    by_cases hc : 65 ≤ c.toNat ∧ c.toNat ≤ 90
    · exfalso
      have := toNat_lowerChar c
      rw [if_pos hc, h] at this
      omega
    · rwa [lowerChar_eq_self c hc] at h
  · intro h
    rw [h]
    exact lowerChar_eq_self d hd1

theorem isDigitC_lowerChar (c : Char) : isDigitC (lowerChar c) = isDigitC c := by
  unfold isDigitC
  rw [toNat_lowerChar]
  split
  · rw [decide_eq_decide]; omega
  · rfl

/-! ### `lower` lemmas -/

theorem length_lower (s : List Char) : (lower s).length = s.length :=
  List.length_map s lowerChar

theorem gc_lower (s : List Char) (i : Nat) : gc (lower s) i = lowerChar (gc s i) := by
  unfold gc lower
  rw [List.getElem?_map]
  cases s[i]?
  · show ' ' = lowerChar ' '
    rfl
  · rfl

theorem lower_take (s : List Char) (n : Nat) : lower (s.take n) = (lower s).take n := by
  unfold lower
  exact List.map_take lowerChar s n

theorem lower_drop (s : List Char) (n : Nat) : lower (s.drop n) = (lower s).drop n := by
  unfold lower
  exact List.map_drop lowerChar s n

theorem findOpenParen_lower (s : List Char) (pos : Nat) :
    findOpenParen (lower s) pos = findOpenParen s pos := by
  induction pos with
  | zero => rfl
  | succ p ih =>
    unfold findOpenParen
    rw [gc_lower, ih]
    by_cases h : gc s (p + 1) = '('
    · rw [if_pos h, if_pos (by rw [h]; decide)]
    · rw [if_neg h, if_neg (by
        intro hc
        exact h ((lowerChar_special_iff _ _ (by decide) (by decide)).mp hc))]

theorem all_isDigitC_lower (s : List Char) : (lower s).all isDigitC = s.all isDigitC := by
  induction s with
  | nil => rfl
  | cons c t ih =>
    unfold lower at *
    simp only [List.map_cons, List.all_cons, ih, isDigitC_lowerChar]

theorem lower_eq_self_of_digits (s : List Char) (h : s.all isDigitC = true) :
    lower s = s := by
  unfold lower
  rw [List.all_eq_true] at h
  rw [List.map_congr_left (g := id), List.map_id]
  intro c hc
  have := h c hc
  unfold isDigitC at this
  rw [decide_eq_true_eq] at this
  exact lowerChar_eq_self c (by omega)

/-! ### Parsing commutes with lower-casing -/

theorem gc_lower_paren_iff (s : List Char) (i : Nat) :
    gc (lower s) i = ')' ↔ gc s i = ')' := by
  rw [gc_lower]
  exact lowerChar_special_iff _ _ (by decide) (by decide)

theorem gc_lower_space_iff (s : List Char) (i : Nat) :
    gc (lower s) i = ' ' ↔ gc s i = ' ' := by
  rw [gc_lower]
  exact lowerChar_special_iff _ _ (by decide) (by decide)

theorem gc_lower_dot_iff (s : List Char) (i : Nat) :
    gc (lower s) i = '.' ↔ gc s i = '.' := by
  rw [gc_lower]
  exact lowerChar_special_iff _ _ (by decide) (by decide)

theorem parseNameSuffix_lower (s : List Char) :
    parseNameSuffix (lower s) =
      (lower (parseNameSuffix s).1, (parseNameSuffix s).2) := by
  simp only [parseNameSuffix]
  rw [length_lower, findOpenParen_lower]
  by_cases h1 : s.length < 5 ∨ gc s (s.length - 1) ≠ ')'
  · have h1' : s.length < 5 ∨ gc (lower s) (s.length - 1) ≠ ')' := by
      rcases h1 with h | h
      · exact Or.inl h
      · exact Or.inr (fun hc => h ((gc_lower_paren_iff s _).mp hc))
    rw [if_pos h1', if_pos h1]
  · have h1' : ¬((lower s).length < 5 ∨ gc (lower s) ((lower s).length - 1) ≠ ')') := by
      rw [length_lower]
      push_neg at h1 ⊢
      exact ⟨h1.1, (gc_lower_paren_iff s _).mpr h1.2⟩
    rw [length_lower] at h1'
    rw [if_neg h1', if_neg h1]
    cases hfo : findOpenParen s (s.length - 2) with
    | none => rfl
    | some pStart =>
      dsimp only
      by_cases h2 : pStart = 0 ∨ gc s (pStart - 1) ≠ ' '
      · have h2' : pStart = 0 ∨ gc (lower s) (pStart - 1) ≠ ' ' := by
          rcases h2 with h | h
          · exact Or.inl h
          · exact Or.inr (fun hc => h ((gc_lower_space_iff s _).mp hc))
        rw [if_pos h2', if_pos h2]
      · have h2' : ¬(pStart = 0 ∨ gc (lower s) (pStart - 1) ≠ ' ') := by
          push_neg at h2 ⊢
          exact ⟨h2.1, (gc_lower_space_iff s _).mpr h2.2⟩
        rw [if_neg h2', if_neg h2]
        by_cases h3 : pStart + 1 ≥ s.length - 1
        · rw [if_pos h3, if_pos h3]
        · rw [if_neg h3, if_neg h3]
          rw [← lower_drop, ← lower_take, all_isDigitC_lower]
          by_cases h4 : ((s.drop (pStart + 1)).take (s.length - 1 - (pStart + 1))).all isDigitC = true
          · rw [if_pos h4, if_pos h4, lower_eq_self_of_digits _ h4, ← lower_take]
          · rw [if_neg h4, if_neg h4]

theorem foldl_lastDot_congr (s : List Char) (l : List Nat) (acc : Option Nat) :
    l.foldl (fun a i => if gc (lower s) i = '.' then some i else a) acc =
    l.foldl (fun a i => if gc s i = '.' then some i else a) acc := by
  induction l generalizing acc with
  | nil => rfl
  | cons j t ih =>
    simp only [List.foldl_cons]
    by_cases h : gc s j = '.'
    · rw [if_pos h, if_pos ((gc_lower_dot_iff s j).mpr h)]
      exact ih _
    · rw [if_neg h, if_neg (fun hc => h ((gc_lower_dot_iff s j).mp hc))]
      exact ih _

theorem lastDotIdx_lower (s : List Char) : lastDotIdx (lower s) = lastDotIdx s := by
  unfold lastDotIdx
  rw [length_lower]
  exact foldl_lastDot_congr s (List.range s.length) none

theorem parseFileNameSuffix_lower (s : List Char) :
    parseFileNameSuffix (lower s) =
      (lower (parseFileNameSuffix s).1, lower (parseFileNameSuffix s).2.1,
        (parseFileNameSuffix s).2.2) := by
  simp only [parseFileNameSuffix]
  rw [lastDotIdx_lower]
  cases hld : lastDotIdx s with
  | none =>
    dsimp only
    rw [parseNameSuffix_lower]
    rfl
  | some dotPos =>
    dsimp only
    by_cases hd : dotPos = 0
    · rw [if_pos hd, if_pos hd, parseNameSuffix_lower]
      rfl
    · rw [if_neg hd, if_neg hd, ← lower_take, ← lower_drop, parseNameSuffix_lower]

/-- Case-insensitively equal names parse to case-insensitively equal
    bases and equal suffix numbers. -/
theorem namesEq_parse {a b : List Char} (h : NamesEq a b) :
    NamesEq (parseNameSuffix a).1 (parseNameSuffix b).1 ∧
      (parseNameSuffix a).2 = (parseNameSuffix b).2 := by
  have ha := parseNameSuffix_lower a
  have hb := parseNameSuffix_lower b
  unfold NamesEq at h
  rw [h, hb] at ha
  rw [Prod.mk.injEq] at ha
  exact ⟨ha.1.symm, ha.2.symm⟩

theorem namesEq_parseFile {a b : List Char} (h : NamesEq a b) :
    NamesEq (parseFileNameSuffix a).1 (parseFileNameSuffix b).1 ∧
      NamesEq (parseFileNameSuffix a).2.1 (parseFileNameSuffix b).2.1 ∧
      (parseFileNameSuffix a).2.2 = (parseFileNameSuffix b).2.2 := by
  have ha := parseFileNameSuffix_lower a
  have hb := parseFileNameSuffix_lower b
  unfold NamesEq at h
  rw [h, hb] at ha
  rw [Prod.mk.injEq, Prod.mk.injEq] at ha
  exact ⟨ha.1.symm, ha.2.1.symm, ha.2.2.symm⟩

/-! ### Max-suffix scan bounds -/

theorem fileSuffixStep_mono (b e : List Char) (m : Nat) (f : FileMetadata) :
    m ≤ fileSuffixStep b e m f := by
  unfold fileSuffixStep
  dsimp only
  split
  · rename_i h1
    obtain ⟨_, _, h3⟩ := h1
    split
    · rename_i h2
      obtain ⟨_, h0⟩ := h2
      omega
    · omega
  · split
    · rename_i h2
      obtain ⟨_, h0⟩ := h2
      omega
    · omega

theorem fileSuffixStep_bound (b e : List Char) (m : Nat) (f : FileMetadata)
    (hb : NamesEq (parseFileNameSuffix f.name).1 b)
    (he : NamesEq (parseFileNameSuffix f.name).2.1 e) :
    (parseFileNameSuffix f.name).2.2 + 1 ≤ fileSuffixStep b e m f := by
  unfold fileSuffixStep
  dsimp only
  by_cases h1 : (parseFileNameSuffix f.name).2.2 ≥ m
  · rw [if_pos (show NamesEq (parseFileNameSuffix f.name).1 b ∧
        NamesEq (parseFileNameSuffix f.name).2.1 e ∧
        (parseFileNameSuffix f.name).2.2 ≥ m from ⟨hb, he, h1⟩)]
    split
    · rename_i h2
      obtain ⟨_, h0⟩ := h2
      omega
    · omega
  · rw [if_neg (show ¬(NamesEq (parseFileNameSuffix f.name).1 b ∧
        NamesEq (parseFileNameSuffix f.name).2.1 e ∧
        (parseFileNameSuffix f.name).2.2 ≥ m) from fun hc => h1 hc.2.2)]
    split
    · rename_i h2
      obtain ⟨_, h0⟩ := h2
      omega
    · omega

theorem foldl_fileSuffix_mono (b e : List Char) (l : List FileMetadata) (m : Nat) :
    m ≤ l.foldl (fileSuffixStep b e) m := by
  induction l generalizing m with
  | nil => exact le_refl m
  | cons f t ih =>
    rw [List.foldl_cons]
    exact le_trans (fileSuffixStep_mono b e m f) (ih _)

theorem foldl_fileSuffix_bound (b e : List Char) (l : List FileMetadata) (m : Nat)
    (f : FileMetadata) (hf : f ∈ l)
    (hb : NamesEq (parseFileNameSuffix f.name).1 b)
    (he : NamesEq (parseFileNameSuffix f.name).2.1 e) :
    (parseFileNameSuffix f.name).2.2 + 1 ≤ l.foldl (fileSuffixStep b e) m := by
  obtain ⟨l1, l2, rfl⟩ := List.append_of_mem hf
  rw [List.foldl_append, List.foldl_cons]
  exact le_trans (fileSuffixStep_bound b e _ f hb he) (foldl_fileSuffix_mono b e l2 _)

/-! ### Decimal digits of a `Nat` -/

theorem toNat_ofNat_small (n : Nat) (h : n < 55296) : (Char.ofNat n).toNat = n := by
  unfold Char.ofNat
  rw [dif_pos (Or.inl h)]
  rfl

theorem digitChar_toNat (d : Nat) (h : d ≤ 9) : (digitChar d).toNat = 48 + d :=
  toNat_ofNat_small (48 + d) (by omega)

theorem natDigitsGo_congr : ∀ f1 f2 n, n < f1 → n < f2 →
    natDigitsGo f1 n = natDigitsGo f2 n := by
  intro f1
  induction f1 with
  | zero => intro f2 n h1; omega
  | succ g ih =>
    intro f2 n h1 h2
    cases f2 with
    | zero => omega
    | succ k =>
      unfold natDigitsGo
      by_cases h : n < 10
      · rw [if_pos h, if_pos h]
      · rw [if_neg h, if_neg h]
        have hdiv : n / 10 < n := Nat.div_lt_self (by omega) (by omega)
        rw [ih k (n / 10) (by omega) (by omega)]

theorem natDigits_eq (n : Nat) :
    natDigits n =
      if n < 10 then [digitChar n]
      else natDigits (n / 10) ++ [digitChar (n % 10)] := by
  show (if n < 10 then [digitChar n] else natDigitsGo n (n / 10) ++ [digitChar (n % 10)]) = _
  by_cases h : n < 10
  · rw [if_pos h, if_pos h]
  · rw [if_neg h, if_neg h]
    have hdiv : n / 10 < n := Nat.div_lt_self (by omega) (by omega)
    show natDigitsGo n (n / 10) ++ _ = natDigitsGo (n / 10 + 1) (n / 10) ++ _
    rw [natDigitsGo_congr n (n / 10 + 1) (n / 10) (by omega) (by omega)]

theorem natDigits_all_digit (n : Nat) : (natDigits n).all isDigitC = true := by
  induction n using Nat.strong_induction_on with
  | _ n ih =>
    rw [natDigits_eq]
    have hd : isDigitC (digitChar (n % 10)) = true := by
      unfold isDigitC
      rw [digitChar_toNat (n % 10) (by omega), decide_eq_true_eq]
      omega
    by_cases h : n < 10
    · rw [if_pos h]
      have hd0 : isDigitC (digitChar n) = true := by
        unfold isDigitC
        rw [digitChar_toNat n (by omega), decide_eq_true_eq]
        omega
      simp [hd0]
    · rw [if_neg h]
      have hdiv : n / 10 < n := Nat.div_lt_self (by omega) (by omega)
      rw [List.all_append, ih (n / 10) hdiv]
      simp [hd]

theorem natDigits_ne_nil (n : Nat) : natDigits n ≠ [] := by
  rw [natDigits_eq]
  by_cases h : n < 10
  · rw [if_pos h]
    exact List.cons_ne_nil _ _
  · rw [if_neg h]
    simp

theorem digitsToNat_append_single (A : List Char) (c : Char) :
    digitsToNat (A ++ [c]) = digitsToNat A * 10 + (c.toNat - 48) := by
  unfold digitsToNat
  rw [List.foldl_append]
  rfl

theorem digitsToNat_natDigits (n : Nat) : digitsToNat (natDigits n) = n := by
  induction n using Nat.strong_induction_on with
  | _ n ih =>
    rw [natDigits_eq]
    by_cases h : n < 10
    · rw [if_pos h]
      unfold digitsToNat
      simp only [List.foldl_cons, List.foldl_nil]
      rw [digitChar_toNat n (by omega)]
      omega
    · rw [if_neg h]
      have hdiv : n / 10 < n := Nat.div_lt_self (by omega) (by omega)
      rw [digitsToNat_append_single, ih (n / 10) hdiv, digitChar_toNat (n % 10) (by omega)]
      omega

theorem natDigits_length2 (n : Nat) (h : 10 ≤ n) : 2 ≤ (natDigits n).length := by
  rw [natDigits_eq, if_neg (by omega)]
  rw [List.length_append, List.length_cons, List.length_nil]
  have := natDigits_ne_nil (n / 10)
  have : 1 ≤ (natDigits (n / 10)).length := by
    cases hh : natDigits (n / 10) with
    | nil => exact absurd hh this
    | cons a t => simp [List.length_cons]
  omega

/-! ### Index helpers -/

theorem gc_append_left (A B : List Char) (i : Nat) (h : i < A.length) :
    gc (A ++ B) i = gc A i := by
  unfold gc
  rw [List.getElem?_append, if_pos h]

theorem gc_append_right (A B : List Char) (i : Nat) (h : A.length ≤ i) :
    gc (A ++ B) i = gc B (i - A.length) := by
  unfold gc
  rw [List.getElem?_append, if_neg (by omega)]

theorem gc_cons_zero (c : Char) (t : List Char) : gc (c :: t) 0 = c := by
  simp [gc]

theorem gc_cons_succ (c : Char) (t : List Char) (k : Nat) : gc (c :: t) (k + 1) = gc t k := by
  simp [gc]

theorem gc_take (s : List Char) (n i : Nat) (h : i < n) : gc (s.take n) i = gc s i := by
  unfold gc
  rw [List.getElem?_take, if_pos h]

theorem gc_oob (s : List Char) (i : Nat) (h : s.length ≤ i) : gc s i = ' ' := by
  unfold gc
  rw [List.getElem?_eq_none h]
  rfl

/-- A digit character is not one of the structural characters. -/
theorem digit_ne (c d : Char) (hc : isDigitC c = true)
    (hd : ¬(48 ≤ d.toNat ∧ d.toNat ≤ 57)) : c ≠ d := by
  intro h
  subst h
  unfold isDigitC at hc
  rw [decide_eq_true_eq] at hc
  exact hd hc

/-! ### `lastDotIdx` characterization -/

theorem lastDot_fold_spec (s : List Char) (n : Nat) :
    (((List.range n).foldl (fun a i => if gc s i = '.' then some i else a) none = none) ↔
      ∀ i, i < n → gc s i ≠ '.') ∧
    (∀ j, (List.range n).foldl (fun a i => if gc s i = '.' then some i else a) none = some j →
      j < n ∧ gc s j = '.' ∧ ∀ i, j < i → i < n → gc s i ≠ '.') ∧
    (∀ j, j < n → gc s j = '.' → (∀ i, j < i → i < n → gc s i ≠ '.') →
      (List.range n).foldl (fun a i => if gc s i = '.' then some i else a) none = some j) := by
  induction n with
  | zero =>
    refine ⟨⟨fun _ i hi => absurd hi (by omega), fun _ => rfl⟩, ?_, ?_⟩
    · intro j h
      simp at h
    · intro j hj
      omega
  | succ n ih =>
    rw [List.range_succ, List.foldl_append, List.foldl_cons, List.foldl_nil]
    by_cases hn : gc s n = '.'
    · rw [if_pos hn]
      refine ⟨⟨fun h => absurd h (by simp), fun h => absurd (h n (by omega)) (not_not.mpr hn)⟩,
        ?_, ?_⟩
      · intro j hj
        rw [Option.some.injEq] at hj
        subst hj
        exact ⟨by omega, hn, fun i h1 h2 => by omega⟩
      · intro j hj hdot hafter
        by_cases hje : j = n
        · rw [hje]
        · exact absurd hn (hafter n (by omega) (by omega))
    · rw [if_neg hn]
      refine ⟨?_, ?_, ?_⟩
      · rw [ih.1]
        constructor
        · intro h i hi
          by_cases hie : i = n
          · rwa [hie]
          · exact h i (by omega)
        · intro h i hi
          exact h i (by omega)
      · intro j hj
        obtain ⟨h1, h2, h3⟩ := ih.2.1 j hj
        refine ⟨by omega, h2, fun i hi1 hi2 => ?_⟩
        by_cases hie : i = n
        · rwa [hie]
        · exact h3 i hi1 (by omega)
      · intro j hj hdot hafter
        have hjn : j ≠ n := fun he => hn (he ▸ hdot)
        exact ih.2.2 j (by omega) hdot (fun i h1 h2 => hafter i h1 (by omega))

theorem lastDotIdx_eq_none (s : List Char) (h : ∀ i, i < s.length → gc s i ≠ '.') :
    lastDotIdx s = none := by
  unfold lastDotIdx
  exact (lastDot_fold_spec s s.length).1.mpr h

theorem lastDotIdx_spec_some (s : List Char) (j : Nat) (h : lastDotIdx s = some j) :
    j < s.length ∧ gc s j = '.' ∧ ∀ i, j < i → i < s.length → gc s i ≠ '.' :=
  (lastDot_fold_spec s s.length).2.1 j h

theorem lastDotIdx_spec_none (s : List Char) (h : lastDotIdx s = none) :
    ∀ i, i < s.length → gc s i ≠ '.' :=
  (lastDot_fold_spec s s.length).1.mp h

theorem lastDotIdx_eq_some (s : List Char) (j : Nat) (hj : j < s.length)
    (hdot : gc s j = '.') (hafter : ∀ i, j < i → i < s.length → gc s i ≠ '.') :
    lastDotIdx s = some j :=
  (lastDot_fold_spec s s.length).2.2 j hj hdot hafter

/-! ### `findOpenParen` characterization -/

theorem findOpenParen_eq_some (s : List Char) : ∀ (start target : Nat),
    1 ≤ target → target ≤ start → gc s target = '(' →
    (∀ j, target < j → j ≤ start → gc s j ≠ '(') →
    findOpenParen s start = some target := by
  intro start
  induction start with
  | zero =>
    intro t h1 h2 _ _
    omega
  | succ p ih =>
    intro t h1 h2 h3 h4
    unfold findOpenParen
    by_cases he : t = p + 1
    · subst he
      rw [if_pos h3]
    · have hne : gc s (p + 1) ≠ '(' := h4 (p + 1) (by omega) (by omega)
      rw [if_neg hne]
      exact ih t h1 (by omega) h3 (fun j hj1 hj2 => h4 j hj1 (by omega))

theorem parseNameSuffix_short (s : List Char) (h : s.length < 5) :
    parseNameSuffix s = (s, 0) := by
  unfold parseNameSuffix
  rw [if_pos (Or.inl h)]

theorem gc_mem (s : List Char) (i : Nat) (h : i < s.length) : gc s i ∈ s := by
  unfold gc
  rw [List.getElem?_eq_getElem h]
  exact List.getElem_mem h

/-- Lengths and characters of the reassembled name
    `base ++ " (" ++ D ++ ")"`. -/
theorem assembled_length (b D : List Char) :
    (b ++ ' ' :: '(' :: (D ++ [')'])).length = b.length + D.length + 3 := by
  simp
  omega

theorem gc_assembled_space (b D : List Char) :
    gc (b ++ ' ' :: '(' :: (D ++ [')'])) b.length = ' ' := by
  rw [gc_append_right _ _ _ (le_refl _), Nat.sub_self, gc_cons_zero]

theorem gc_assembled_paren (b D : List Char) :
    gc (b ++ ' ' :: '(' :: (D ++ [')'])) (b.length + 1) = '(' := by
  rw [gc_append_right _ _ _ (by omega), show b.length + 1 - b.length = 1 from by omega,
    gc_cons_succ, gc_cons_zero]

theorem gc_assembled_digit (b D : List Char) (k : Nat) (hk : k < D.length) :
    gc (b ++ ' ' :: '(' :: (D ++ [')'])) (b.length + 2 + k) = gc D k := by
  rw [gc_append_right _ _ _ (by omega), show b.length + 2 + k - b.length = k + 1 + 1 from by omega,
    gc_cons_succ, gc_cons_succ, gc_append_left _ _ _ hk]

theorem gc_assembled_close (b D : List Char) :
    gc (b ++ ' ' :: '(' :: (D ++ [')'])) (b.length + 2 + D.length) = ')' := by
  rw [gc_append_right _ _ _ (by omega),
    show b.length + 2 + D.length - b.length = D.length + 1 + 1 from by omega,
    gc_cons_succ, gc_cons_succ, gc_append_right _ _ _ (le_refl _), Nat.sub_self, gc_cons_zero]

theorem gc_assembled_base (b D : List Char) (i : Nat) (hi : i < b.length) :
    gc (b ++ ' ' :: '(' :: (D ++ [')'])) i = gc b i :=
  gc_append_left _ _ _ hi

/-- Round trip: parsing the reassembled `base ++ " (" ++ D ++ ")"`
    recovers the base and the digit value, provided the whole name is at
    least five characters long. -/
theorem parse_assemble (b D : List Char) (hD : 1 ≤ D.length) (hDd : D.all isDigitC = true)
    (hlen : b ≠ [] ∨ 2 ≤ D.length) :
    parseNameSuffix (b ++ ' ' :: '(' :: (D ++ [')'])) = (b, digitsToNat D) := by
  have hb1 : b ≠ [] → 1 ≤ b.length := by
    intro h
    cases b with
    | nil => exact absurd rfl h
    | cons a t => simp
  have h5 : ¬(b ++ ' ' :: '(' :: (D ++ [')'])).length < 5 := by
    rw [assembled_length]
    rcases hlen with h | h
    · have := hb1 h
      omega
    · omega
  have hdig : ∀ k, k < D.length → isDigitC (gc D k) = true := by
    intro k hk
    rw [List.all_eq_true] at hDd
    exact hDd _ (gc_mem D k hk)
  unfold parseNameSuffix
  rw [assembled_length]
  rw [if_neg (by
    rw [not_or]
    refine ⟨h5 ∘ (by rw [assembled_length]; exact id), ?_⟩
    rw [show b.length + D.length + 3 - 1 = b.length + 2 + D.length from by omega,
      gc_assembled_close]
    exact fun hne => hne rfl)]
  have hfo : findOpenParen (b ++ ' ' :: '(' :: (D ++ [')'])) (b.length + D.length + 3 - 2) =
      some (b.length + 1) := by
    apply findOpenParen_eq_some _ _ _ (by omega) (by omega) (gc_assembled_paren b D)
    intro j hj1 hj2
    rw [show j = b.length + 2 + (j - b.length - 2) from by omega,
      gc_assembled_digit b D _ (by omega)]
    exact digit_ne _ '(' (hdig _ (by omega)) (by decide)
  rw [hfo]
  dsimp only
  rw [if_neg (by
    rw [not_or]
    refine ⟨by omega, ?_⟩
    rw [show b.length + 1 - 1 = b.length from by omega, gc_assembled_space]
    exact fun hne => hne rfl)]
  rw [if_neg (show ¬(b.length + 1 + 1 ≥ b.length + D.length + 3 - 1) from by omega)]
  have hshape : b ++ ' ' :: '(' :: (D ++ [')']) = (b ++ [' ', '(']) ++ (D ++ [')']) := by
    rw [List.append_assoc]
    rfl
  have hdrop : (b ++ ' ' :: '(' :: (D ++ [')'])).drop (b.length + 1 + 1) = D ++ [')'] := by
    rw [hshape, show b.length + 1 + 1 = (b ++ [' ', '(']).length from by simp]
    exact List.drop_left _ _
  have htake : (D ++ [')']).take (b.length + D.length + 3 - 1 - (b.length + 1 + 1)) = D := by
    rw [show b.length + D.length + 3 - 1 - (b.length + 1 + 1) = D.length from by omega]
    exact List.take_left D [')']
  rw [hdrop, htake, if_pos hDd,
    show b.length + 1 - 1 = b.length from by omega]
  rw [show (b ++ ' ' :: '(' :: (D ++ [')'])).take b.length = b from by
    conv_lhs => rw [show b.length = b.length from rfl]
    exact List.take_left b _]

theorem gc_drop (s : List Char) (n k : Nat) : gc (s.drop n) k = gc s (n + k) := by
  unfold gc
  rw [List.getElem?_drop]

theorem isDigitC_digitChar (m : Nat) (h : m ≤ 9) : isDigitC (digitChar m) = true := by
  unfold isDigitC
  rw [digitChar_toNat m h, decide_eq_true_eq]
  omega

/-- Any dot inside the reassembled `base ++ " (" ++ D ++ ")"` lies
    inside the base. -/
theorem assembled_dot_lt (b D : List Char) (hDd : D.all isDigitC = true) (i : Nat)
    (h : gc (b ++ ' ' :: '(' :: (D ++ [')'])) i = '.') : i < b.length := by
  by_contra hge
  push_neg at hge
  have hdig : ∀ k, k < D.length → isDigitC (gc D k) = true := by
    intro k hk
    rw [List.all_eq_true] at hDd
    exact hDd _ (gc_mem D k hk)
  by_cases h1 : i = b.length
  · rw [h1, gc_assembled_space] at h
    exact absurd h (by decide)
  · by_cases h2 : i = b.length + 1
    · rw [h2, gc_assembled_paren] at h
      exact absurd h (by decide)
    · by_cases h3 : i < b.length + 2 + D.length
      · rw [show i = b.length + 2 + (i - b.length - 2) from by omega,
          gc_assembled_digit b D _ (by omega)] at h
        exact digit_ne _ '.' (hdig _ (by omega)) (by decide) h
      · by_cases h4 : i = b.length + 2 + D.length
        · rw [h4, gc_assembled_close] at h
          exact absurd h (by decide)
        · rw [gc_oob _ _ (by rw [assembled_length]; omega)] at h
          exact absurd h (by decide)

/-- The extension that `parseFileNameSuffix` splits off never contains
    a dot. -/
theorem ext_no_dot (s : List Char) (k : Nat)
    (hk : k < (parseFileNameSuffix s).2.1.length) :
    gc (parseFileNameSuffix s).2.1 k ≠ '.' := by
  unfold parseFileNameSuffix at *
  cases hld : lastDotIdx s with
  | none =>
    rw [hld] at hk
    dsimp only at hk
    simp at hk
  | some dotPos =>
    rw [hld] at hk
    dsimp only at hk ⊢
    by_cases h0 : dotPos = 0
    · rw [if_pos h0] at hk
      dsimp only at hk
      simp at hk
    · rw [if_neg h0] at hk ⊢
      dsimp only at hk ⊢
      rw [gc_drop]
      have hspec := lastDotIdx_spec_some s dotPos hld
      rw [List.length_drop] at hk
      exact hspec.2.2 _ (by omega) (by omega)

/-- Round trip for a reassembled file name without extension, provided
    the base has no interior dot. -/
theorem parseFile_assemble_noext (b D : List Char) (hD : 1 ≤ D.length)
    (hDd : D.all isDigitC = true) (hlen : b ≠ [] ∨ 2 ≤ D.length)
    (hbdot : ∀ j, 0 < j → j < b.length → gc b j ≠ '.') :
    parseFileNameSuffix (b ++ ' ' :: '(' :: (D ++ [')'])) = (b, [], digitsToNat D) := by
  unfold parseFileNameSuffix
  cases hld : lastDotIdx (b ++ ' ' :: '(' :: (D ++ [')'])) with
  | none =>
    dsimp only
    rw [parse_assemble b D hD hDd hlen]
  | some j =>
    have hspec := lastDotIdx_spec_some _ _ hld
    have hjb : j < b.length := assembled_dot_lt b D hDd j hspec.2.1
    have hj0 : j = 0 := by
      by_contra hne
      exact hbdot j (by omega) hjb (by
        rw [← gc_assembled_base b D j hjb]
        exact hspec.2.1)
    dsimp only
    rw [if_pos hj0, parse_assemble b D hD hDd hlen]

/-- Splitting a reassembled file name with extension: the last dot is
    the explicitly inserted one, whenever the extension is dot-free. -/
theorem parseFile_assemble_ext_general (b D e : List Char) (_hD : 1 ≤ D.length)
    (_hDd : D.all isDigitC = true)
    (hedot : ∀ k, k < e.length → gc e k ≠ '.') :
    parseFileNameSuffix (b ++ ' ' :: '(' :: (D ++ [')', '.']) ++ e) =
      ((parseNameSuffix (b ++ ' ' :: '(' :: (D ++ [')']))).1, e,
        (parseNameSuffix (b ++ ' ' :: '(' :: (D ++ [')']))).2) := by
  have hshape : b ++ ' ' :: '(' :: (D ++ [')', '.']) ++ e =
      (b ++ ' ' :: '(' :: (D ++ [')'])) ++ '.' :: e := by
    simp
  have hAlen : (b ++ ' ' :: '(' :: (D ++ [')'])).length = b.length + D.length + 3 :=
    assembled_length b D
  have hLen : (b ++ ' ' :: '(' :: (D ++ [')', '.']) ++ e).length =
      b.length + D.length + 4 + e.length := by
    rw [hshape, List.length_append, hAlen, List.length_cons]
    omega
  have hld : lastDotIdx (b ++ ' ' :: '(' :: (D ++ [')', '.']) ++ e) =
      some (b.length + D.length + 3) := by
    apply lastDotIdx_eq_some
    · omega
    · rw [hshape, gc_append_right _ _ _ (by omega), hAlen, Nat.sub_self, gc_cons_zero]
    · intro i hi1 hi2
      rw [hshape, gc_append_right _ _ _ (by omega), hAlen,
        show i - (b.length + D.length + 3) = (i - (b.length + D.length + 4)) + 1 from by omega,
        gc_cons_succ]
      exact hedot _ (by rw [hLen] at hi2; omega)
  unfold parseFileNameSuffix
  rw [hld]
  dsimp only
  rw [if_neg (show ¬(b.length + D.length + 3 = 0) from by omega)]
  have htake : (b ++ ' ' :: '(' :: (D ++ [')', '.']) ++ e).take (b.length + D.length + 3) =
      b ++ ' ' :: '(' :: (D ++ [')']) := by
    rw [hshape, ← hAlen]
    exact List.take_left _ _
  have hdrop : (b ++ ' ' :: '(' :: (D ++ [')', '.']) ++ e).drop (b.length + D.length + 3 + 1) = e := by
    have hshape2 : (b ++ ' ' :: '(' :: (D ++ [')'])) ++ '.' :: e =
        ((b ++ ' ' :: '(' :: (D ++ [')'])) ++ ['.']) ++ e := by
      simp
    rw [hshape, hshape2,
      show b.length + D.length + 3 + 1 = ((b ++ ' ' :: '(' :: (D ++ [')'])) ++ ['.']).length from by
        rw [List.length_append, hAlen]; simp]
    exact List.drop_left _ _
  rw [htake, hdrop]

/-- Round trip for a reassembled file name with a dot-free, nonempty
    extension. -/
theorem parseFile_assemble_ext (b D e : List Char) (hD : 1 ≤ D.length)
    (hDd : D.all isDigitC = true) (hlen : b ≠ [] ∨ 2 ≤ D.length)
    (hedot : ∀ k, k < e.length → gc e k ≠ '.') :
    parseFileNameSuffix (b ++ ' ' :: '(' :: (D ++ [')', '.']) ++ e) = (b, e, digitsToNat D) := by
  rw [parseFile_assemble_ext_general b D e hD hDd hedot, parse_assemble b D hD hDd hlen]

/-- When the desired file name collides case-insensitively with a
    sibling, the generated suffixed name differs from the desired one. -/
theorem collision_result_ne (files : List FileMetadata) (folderId excl : Option Nat)
    (desired : List Char)
    (hcol : (files.filter (isSibFile folderId excl)).any
      (fun f => decide (NamesEq f.name desired)) = true) :
    getUniqueFileName files folderId desired excl ≠ desired := by
  intro heq
  unfold getUniqueFileName at heq
  rw [if_pos hcol] at heq
  dsimp only at heq
  have hcol2 := hcol
  rw [List.any_eq_true] at hcol2
  obtain ⟨f0, hf0mem, hf0eq⟩ := hcol2
  have hne0 : NamesEq f0.name desired := of_decide_eq_true hf0eq
  have hp := namesEq_parseFile hne0
  have hm : (parseFileNameSuffix desired).2.2 + 1 ≤
      (files.filter (isSibFile folderId excl)).foldl
        (fileSuffixStep (parseFileNameSuffix desired).1 (parseFileNameSuffix desired).2.1) 0 := by
    have hb := foldl_fileSuffix_bound (parseFileNameSuffix desired).1
      (parseFileNameSuffix desired).2.1 (files.filter (isSibFile folderId excl)) 0
      f0 hf0mem hp.1 hp.2.1
    rw [hp.2.2] at hb
    exact hb
  generalize hM : (files.filter (isSibFile folderId excl)).foldl
      (fileSuffixStep (parseFileNameSuffix desired).1 (parseFileNameSuffix desired).2.1) 0
      = M at heq hm
  have hD : 1 ≤ (natDigits M).length := by
    cases hh : natDigits M with
    | nil => exact absurd hh (natDigits_ne_nil M)
    | cons a t => simp
  have hDd := natDigits_all_digit M
  by_cases he : (parseFileNameSuffix desired).2.1 = []
  · rw [if_pos he] at heq
    by_cases hdot : ∃ j, 0 < j ∧ j < (parseFileNameSuffix desired).1.length ∧
        gc (parseFileNameSuffix desired).1 j = '.'
    · obtain ⟨j, hj1, hj2, hj3⟩ := hdot
      have hdotd : gc desired j = '.' := by
        rw [← heq, gc_assembled_base _ _ _ hj2]
        exact hj3
      have hjlen : j < desired.length := by
        rw [← heq, assembled_length]
        omega
      cases hld : lastDotIdx desired with
      | none => exact lastDotIdx_spec_none desired hld j hjlen hdotd
      | some js =>
        have hspec := lastDotIdx_spec_some _ _ hld
        have hjs_lt : js < (parseFileNameSuffix desired).1.length := by
          apply assembled_dot_lt _ (natDigits M) hDd
          rw [heq]
          exact hspec.2.1
        have hjjs : j ≤ js := by
          by_contra hlt
          push_neg at hlt
          exact hspec.2.2 j hlt hjlen hdotd
        have hext : (parseFileNameSuffix desired).2.1 = desired.drop (js + 1) := by
          unfold parseFileNameSuffix
          rw [hld]
          dsimp only
          rw [if_neg (show ¬js = 0 from by omega)]
        rw [hext] at he
        have hzero : desired.length - (js + 1) = 0 := by
          rw [← List.length_drop, he]
          rfl
        rw [← heq, assembled_length] at hzero
        omega
    · push_neg at hdot
      by_cases hsmall : (parseFileNameSuffix desired).1 = [] ∧ M < 10
      · obtain ⟨hb0, hM10⟩ := hsmall
        rw [hb0, natDigits_eq, if_pos hM10] at heq
        have hld : lastDotIdx desired = none := by
          apply lastDotIdx_eq_none
          intro i hi
          rw [← heq] at hi ⊢
          have hi4 : i < 4 := by simpa using hi
          have hdig : isDigitC (digitChar M) = true := isDigitC_digitChar M (by omega)
          interval_cases i
          · rw [show gc ([] ++ ' ' :: '(' :: ([digitChar M] ++ [')'])) 0 = ' ' from rfl]
            decide
          · rw [show gc ([] ++ ' ' :: '(' :: ([digitChar M] ++ [')'])) 1 = '(' from rfl]
            decide
          · show gc ([] ++ ' ' :: '(' :: ([digitChar M] ++ [')'])) 2 ≠ '.'
            rw [List.nil_append, gc_cons_succ, gc_cons_succ,
              show ([digitChar M] ++ [')']) = digitChar M :: [')'] from rfl, gc_cons_zero]
            exact digit_ne _ '.' hdig (by decide)
          · rw [show gc ([] ++ ' ' :: '(' :: ([digitChar M] ++ [')'])) 3 = ')' from rfl]
            decide
        have hparse1 : (parseFileNameSuffix desired).1 = desired := by
          unfold parseFileNameSuffix
          rw [hld]
          dsimp only
          rw [parseNameSuffix_short desired (by rw [← heq]; simp)]
        rw [hparse1] at hb0
        rw [← heq] at hb0
        simp at hb0
      · have hlen2 : (parseFileNameSuffix desired).1 ≠ [] ∨ 2 ≤ (natDigits M).length := by
          rcases not_and_or.mp hsmall with h | h
          · exact Or.inl h
          · exact Or.inr (natDigits_length2 M (by omega))
        have hround := parseFile_assemble_noext (parseFileNameSuffix desired).1 (natDigits M)
          hD hDd hlen2 hdot
        rw [heq, digitsToNat_natDigits] at hround
        have hcontra : (parseFileNameSuffix desired).2.2 = M := by
          rw [hround]
        omega
  · rw [if_neg he] at heq
    have hedot : ∀ k, k < (parseFileNameSuffix desired).2.1.length →
        gc (parseFileNameSuffix desired).2.1 k ≠ '.' :=
      fun k hk => ext_no_dot desired k hk
    by_cases hsmall : (parseFileNameSuffix desired).1 = [] ∧ M < 10
    · obtain ⟨hb0, hM10⟩ := hsmall
      rw [hb0, natDigits_eq, if_pos hM10] at heq
      have hgen := parseFile_assemble_ext_general [] [digitChar M]
        (parseFileNameSuffix desired).2.1 (by simp)
        (by simp [isDigitC_digitChar M (by omega)]) hedot
      rw [heq] at hgen
      rw [parseNameSuffix_short _ (by simp)] at hgen
      have hb2 : (parseFileNameSuffix desired).1 =
          [] ++ ' ' :: '(' :: ([digitChar M] ++ [')']) := by
        rw [hgen]
      rw [hb0] at hb2
      simp at hb2
    · have hlen2 : (parseFileNameSuffix desired).1 ≠ [] ∨ 2 ≤ (natDigits M).length := by
        rcases not_and_or.mp hsmall with h | h
        · exact Or.inl h
        · exact Or.inr (natDigits_length2 M (by omega))
      have hround := parseFile_assemble_ext (parseFileNameSuffix desired).1 (natDigits M)
        (parseFileNameSuffix desired).2.1 hD hDd hlen2 hedot
      rw [heq, digitsToNat_natDigits] at hround
      have hcontra : (parseFileNameSuffix desired).2.2 = M := by
        rw [hround]
      omega

/-- Fixture for the C8 counterexample: a file "photo (1).jpg" at root. -/
def c8file : FileMetadata :=
  { id := 1, name := "photo (1).jpg".toList, description := [], tagIds := [],
    folderId := none, size := 0, uploadDate := 0, modifiedDate := 0, fileType := [], blob := 0 }

/-- C8 counterexample: resolving "photo.jpg" against a folder that holds
    "photo (1).jpg" returns the name unchanged, although the sibling's
    suffix-parsed base ("photo") and extension ("jpg") both match the
    desired name's — so "returned unchanged exactly when no sibling
    matches on base and extension" is false on the code. -/
theorem C8_counterexample :
    getUniqueFileName [c8file] none "photo.jpg".toList none = "photo.jpg".toList ∧
    isSibFile none none c8file = true ∧
    NamesEq (parseFileNameSuffix c8file.name).1
      (parseFileNameSuffix "photo.jpg".toList).1 ∧
    NamesEq (parseFileNameSuffix c8file.name).2.1
      (parseFileNameSuffix "photo.jpg".toList).2.1 := by
  decide

/-- C8 (amended): for every file-name resolution, the desired name is
    returned unchanged exactly when no sibling file in the target folder
    (excluding the file itself) has the *whole* name equal to it under
    case-insensitive comparison; matching on suffix-parsed base and
    extension governs only the suffix scan, not the unchanged-return
    test. -/
theorem C8_unique_file_name_unchanged_iff :
    ∀ (files : List FileMetadata) (folderId excl : Option Nat) (desired : List Char),
      getUniqueFileName files folderId desired excl = desired ↔
        ∀ f ∈ files, isSibFile folderId excl f = true → ¬ NamesEq f.name desired := by
  intro files folderId excl desired
  constructor
  · intro heq f hf hs hne
    exact collision_result_ne files folderId excl desired
      (by
        rw [List.any_eq_true]
        exact ⟨f, List.mem_filter.mpr ⟨hf, hs⟩, decide_eq_true hne⟩) heq
  · intro hno
    unfold getUniqueFileName
    rw [if_neg (show ¬((files.filter (isSibFile folderId excl)).any
        (fun f => decide (NamesEq f.name desired)) = true) from by
      rw [List.any_eq_true]
      rintro ⟨f, hfmem, hfd⟩
      rw [List.mem_filter] at hfmem
      exact hno f hfmem.1 hfmem.2 (of_decide_eq_true hfd))]

/-! ### Map lemmas -/

theorem mget_mRemove {V : Type} (m : M V) (k j : Nat) :
    mget (mRemove m k) j = if j = k then none else mget m j := by
  induction m with
  | nil =>
    unfold mRemove mget
    simp
  | cons p r ih =>
    unfold mRemove at ih ⊢
    rw [List.filter_cons]
    by_cases hp : p.1 = k
    · rw [if_neg (by simp [hp]), ih]
      by_cases hj : j = k
      · rw [if_pos hj, if_pos hj]
      · rw [if_neg hj, if_neg hj]
        simp only [mget]
        rw [if_neg (by omega)]
    · rw [if_pos (by simp [hp])]
      unfold mget
      by_cases hj : j = p.1
      · rw [if_pos hj, if_neg (by omega), if_pos hj]
      · rw [if_neg hj, ih]
        by_cases hk : j = k
        · rw [if_pos hk, if_pos hk]
        · rw [if_neg hk, if_neg hk]
          unfold mget
          rw [if_neg hj]

theorem mget_foldl_mRemove {V : Type} (l : List Nat) (m : M V) (j : Nat) :
    mget (l.foldl mRemove m) j = if j ∈ l then none else mget m j := by
  induction l generalizing m with
  | nil => simp
  | cons i t ih =>
    rw [List.foldl_cons, ih, mget_mRemove]
    by_cases ht : j ∈ t
    · rw [if_pos ht, if_pos (List.mem_cons.mpr (Or.inr ht))]
    · rw [if_neg ht]
      by_cases hi : j = i
      · rw [if_pos hi, if_pos (List.mem_cons.mpr (Or.inl hi))]
      · rw [if_neg hi, if_neg (by
          rw [List.mem_cons]
          rintro (h | h)
          · exact hi h
          · exact ht h)]

theorem mget_mAdd {V : Type} (m : M V) (k : Nat) (v : V) (j : Nat) :
    mget (mAdd m k v) j = if j = k then some v else mget m j := by
  induction m with
  | nil =>
    simp only [mAdd, mget]
  | cons p r ih =>
    simp only [mAdd]
    by_cases h1 : k < p.1
    · rw [if_pos h1]
      simp only [mget]
    · rw [if_neg h1]
      by_cases h2 : k = p.1
      · rw [if_pos h2]
        simp only [mget]
        by_cases hj : j = k
        · rw [if_pos hj, if_pos hj]
        · rw [if_neg hj, if_neg hj, if_neg (by omega)]
      · rw [if_neg h2]
        simp only [mget, ih]
        by_cases hj : j = p.1
        · rw [if_pos hj, if_neg (by omega), if_pos hj]
        · rw [if_neg hj, if_neg hj]

theorem mget_update {V : Type} (m : M V) (k : Nat) (v : V) (j : Nat) :
    mget (mAdd (mRemove m k) k v) j = if j = k then some v else mget m j := by
  rw [mget_mAdd, mget_mRemove]
  by_cases hj : j = k
  · rw [if_pos hj, if_pos hj]
  · rw [if_neg hj, if_neg hj, if_neg hj]

theorem mget_mem {V : Type} (m : M V) (k : Nat) (v : V) (h : mget m k = some v) :
    (k, v) ∈ m := by
  induction m with
  | nil => cases h
  | cons p r ih =>
    simp only [mget] at h
    by_cases hk : k = p.1
    · rw [if_pos hk] at h
      rw [Option.some.injEq] at h
      rw [List.mem_cons]
      left
      rw [hk, ← h]
    · rw [if_neg hk] at h
      exact List.mem_cons.mpr (Or.inr (ih h))

theorem mget_eq_none_iff {V : Type} (m : M V) (k : Nat) :
    mget m k = none ↔ ∀ p ∈ m, p.1 ≠ k := by
  induction m with
  | nil => simp [mget]
  | cons p r ih =>
    simp only [mget]
    by_cases hk : k = p.1
    · rw [if_pos hk]
      simp only [List.mem_cons]
      constructor
      · intro h
        cases h
      · intro h
        exact absurd hk.symm (h p (Or.inl rfl))
    · rw [if_neg hk, ih]
      simp only [List.mem_cons]
      constructor
      · intro h q hq
        rcases hq with hq | hq
        · rw [hq]
          omega
        · exact h q hq
      · intro h q hq
        exact h q (Or.inr hq)

/-- Well-formed per-tenant map: keys are distinct and every record's id
    field equals its key (true in every state the operations build). -/
def MapWF {V : Type} (m : M V) (idOf : V → Nat) : Prop :=
  (m.map (fun p => p.1)).Nodup ∧ ∀ p ∈ m, idOf p.2 = p.1

instance {V : Type} (m : M V) (idOf : V → Nat) : Decidable (MapWF m idOf) :=
  inferInstanceAs (Decidable (_ ∧ _))

theorem mem_mget {V : Type} (m : M V) (hnd : (m.map (fun p => p.1)).Nodup)
    (k : Nat) (v : V) (h : (k, v) ∈ m) : mget m k = some v := by
  induction m with
  | nil => cases h
  | cons p r ih =>
    rw [List.map_cons, List.nodup_cons] at hnd
    rcases List.mem_cons.mp h with h1 | h1
    · rw [← h1]
      simp [mget]
    · simp only [mget]
      have hk : k ≠ p.1 := by
        intro he
        exact hnd.1 (he ▸ (List.mem_map.mpr ⟨(k, v), h1, rfl⟩))
      rw [if_neg hk]
      exact ih hnd.2 h1

theorem mem_values {V : Type} (m : M V) (v : V) :
    v ∈ mValues m ↔ ∃ k, (k, v) ∈ m := by
  unfold mValues
  rw [List.mem_map]
  constructor
  · rintro ⟨p, hp, he⟩
    exact ⟨p.1, by rw [← he]; exact hp⟩
  · rintro ⟨k, hk⟩
    exact ⟨(k, v), hk, rfl⟩

theorem values_ids_nodup {V : Type} (m : M V) (idOf : V → Nat) (h : MapWF m idOf) :
    ((mValues m).map idOf).Nodup := by
  have he : (mValues m).map idOf = m.map (fun p => p.1) := by
    unfold mValues
    rw [List.map_map]
    apply List.map_congr_left
    intro p hp
    exact h.2 p hp
  rw [he]
  exact h.1

/-! ### `deleteTag` cascade -/

/-- The rewrite `deleteTag` applies to a file carrying the tag: drop the
    tag id from `tagIds`, keep every other field (including
    `modifiedDate`). -/
def stripTag (tid : Nat) (f : FileMetadata) : FileMetadata :=
  { f with tagIds := f.tagIds.filter (fun t => decide (¬ t = tid)) }

theorem deleteTagStep_eq (tid : Nat) (m : M FileMetadata) (f : FileMetadata) :
    deleteTagStep tid m f =
      if f.tagIds.any (fun t => t == tid) = true
      then mAdd (mRemove m f.id) f.id (stripTag tid f)
      else m := rfl

theorem deleteTag_fold_get_absent (tid : Nat) (l : List FileMetadata)
    (m : M FileMetadata) (k : Nat)
    (h : ∀ f ∈ l, f.id = k → f.tagIds.any (fun t => t == tid) = false) :
    mget (l.foldl (deleteTagStep tid) m) k = mget m k := by
  induction l generalizing m with
  | nil => rfl
  | cons f t ih =>
    rw [List.foldl_cons, ih _ (fun g hg => h g (List.mem_cons.mpr (Or.inr hg))),
      deleteTagStep_eq]
    split
    · rename_i htag
      rw [mget_update]
      rw [if_neg (by
        intro hk
        have := h f (List.mem_cons.mpr (Or.inl rfl)) hk.symm
        rw [htag] at this
        cases this)]
    · rfl

theorem deleteTag_fold_get_present (tid : Nat) (l : List FileMetadata)
    (m : M FileMetadata) (k : Nat) (f : FileMetadata)
    (hnd : (l.map (fun g => g.id)).Nodup) (hf : f ∈ l) (hid : f.id = k)
    (htag : f.tagIds.any (fun t => t == tid) = true) :
    mget (l.foldl (deleteTagStep tid) m) k = some (stripTag tid f) := by
  induction l generalizing m with
  | nil => cases hf
  | cons g t ih =>
    rw [List.map_cons, List.nodup_cons] at hnd
    rw [List.foldl_cons]
    by_cases hgk : g.id = k
    · have hfg : f = g := by
        rcases List.mem_cons.mp hf with h1 | h1
        · exact h1
        · exfalso
          apply hnd.1
          rw [hgk, ← hid]
          exact List.mem_map.mpr ⟨f, h1, rfl⟩
      subst hfg
      rw [deleteTag_fold_get_absent tid t _ k (fun g' hg' hg'k =>
        absurd (show f.id ∈ List.map (fun g => g.id) t from by
          rw [hgk, ← hg'k]
          exact List.mem_map.mpr ⟨g', hg', rfl⟩) hnd.1)]
      rw [deleteTagStep_eq, if_pos htag, mget_update, if_pos hgk.symm]
    · have hft : f ∈ t := by
        rcases List.mem_cons.mp hf with h1 | h1
        · exact absurd (h1 ▸ hid) hgk
        · exact h1
      exact ih _ hnd.2 hft

/-- C5: `deleteTag` removes the tag id from every file and rewrites no
    other field; in particular `modifiedDate` is untouched. -/
theorem C5_deleteTag_cascade :
    ∀ (s : TenantState) (tid : Nat),
      MapWF s.files (fun f => f.id) →
      mContains s.tags tid = true →
      (deleteTag s tid).1 = .ok () ∧
      (∀ k, mget (deleteTag s tid).2.files k = (mget s.files k).map (stripTag tid)) ∧
      (∀ k f, mget (deleteTag s tid).2.files k = some f → ¬ tid ∈ f.tagIds) ∧
      (deleteTag s tid).2.folders = s.folders ∧
      (deleteTag s tid).2.tags = mRemove s.tags tid := by
  intro s tid hwf htag
  have hnot : ¬(mContains s.tags tid = false) := by
    rw [htag]
    intro hc
    cases hc
  have hnd : ((mValues s.files).map (fun f => f.id)).Nodup :=
    values_ids_nodup s.files (fun f => f.id) hwf
  have hchar : ∀ k, mget (deleteTag s tid).2.files k = (mget s.files k).map (stripTag tid) := by
    intro k
    unfold deleteTag
    rw [if_neg hnot]
    dsimp only
    cases hk : mget s.files k with
    | none =>
      rw [Option.map_none']
      rw [deleteTag_fold_get_absent tid _ _ k (fun f hfv hfk => by
        exfalso
        obtain ⟨j, hj⟩ := (mem_values s.files f).mp hfv
        have hjid : f.id = j := hwf.2 (j, f) hj
        have : mget s.files k = some f := by
          rw [← hfk, hjid]
          exact mem_mget s.files hwf.1 j f hj
        rw [hk] at this
        cases this)]
      exact hk
    | some f =>
      have hpair : (k, f) ∈ s.files := mget_mem s.files k f hk
      have hfid : f.id = k := hwf.2 (k, f) hpair
      have hfv : f ∈ mValues s.files := (mem_values s.files f).mpr ⟨k, hpair⟩
      rw [Option.map_some']
      by_cases htg : f.tagIds.any (fun t => t == tid) = true
      · exact deleteTag_fold_get_present tid _ _ k f hnd hfv hfid htg
      · rw [deleteTag_fold_get_absent tid _ _ k (fun g hgv hgk => by
          obtain ⟨j, hj⟩ := (mem_values s.files g).mp hgv
          have hjid : g.id = j := hwf.2 (j, g) hj
          have hg : mget s.files k = some g := by
            rw [← hgk, hjid]
            exact mem_mget s.files hwf.1 j g hj
          rw [hk, Option.some.injEq] at hg
          rw [← hg]
          exact Bool.eq_false_iff.mpr htg), hk]
        rw [Option.some.injEq]
        have hfilter : f.tagIds.filter (fun t => decide (¬ t = tid)) = f.tagIds := by
          apply List.filter_eq_self.mpr
          intro t ht
          rw [decide_eq_true_eq]
          intro he
          exact htg (List.any_eq_true.mpr ⟨t, ht, by rw [he]; exact beq_self_eq_true tid⟩)
        unfold stripTag
        rw [hfilter]
  refine ⟨by unfold deleteTag; rw [if_neg hnot], hchar, ?_, ?_, ?_⟩
  · intro k f hf
    rw [hchar k] at hf
    cases hk : mget s.files k with
    | none =>
      rw [hk] at hf
      cases hf
    | some g =>
      rw [hk, Option.map_some', Option.some.injEq] at hf
      rw [← hf]
      unfold stripTag
      intro hmem
      dsimp only at hmem
      have := List.of_mem_filter hmem
      rw [decide_eq_true_eq] at this
      exact this rfl
  · unfold deleteTag
    rw [if_neg hnot]
  · unfold deleteTag
    rw [if_neg hnot]

/-- Fixture for the C5 witness. -/
def c5tag : Tag := { id := 1, name := ['t'], color := [] }

def c5file : FileMetadata :=
  { id := 1, name := ['a'], description := [], tagIds := [1], folderId := none,
    size := 0, uploadDate := 0, modifiedDate := 0, fileType := [], blob := 0 }

def c5state : TenantState :=
  { emptyTenant with tags := [(1, c5tag)], files := [(1, c5file)] }

theorem C5_deleteTag_cascade_witness : (deleteTag c5state 1).1 = .ok () :=
  (C5_deleteTag_cascade c5state 1 (by decide) (by decide)).1

/-- C6: every exported mutation that fails leaves the tenant state
    (folders, files, tags, id counters) exactly as it was: each
    operation validates before its first write. -/
theorem C6_failed_mutations_leave_state_unchanged :
    (∀ (s : TenantState) (nm : List Char) (pid : Option Nat) (now : Int),
      isErr (createFolder s nm pid now).1 = true → (createFolder s nm pid now).2 = s) ∧
    (∀ (s : TenantState) (i : Nat) (nm : List Char) (now : Int),
      isErr (renameFolder s i nm now).1 = true → (renameFolder s i nm now).2 = s) ∧
    (∀ (s : TenantState) (i : Nat) (pid : Option Nat) (now : Int),
      isErr (moveFolder s i pid now).1 = true → (moveFolder s i pid now).2 = s) ∧
    (∀ (s : TenantState) (i : Nat),
      isErr (deleteFolder s i).1 = true → (deleteFolder s i).2 = s) ∧
    (∀ (s : TenantState) (nm ds : List Char) (tg : List Nat) (fid : Option Nat)
        (sz : Nat) (ft : List Char) (bl : Nat) (now : Int),
      isErr (uploadFile s nm ds tg fid sz ft bl now).1 = true →
        (uploadFile s nm ds tg fid sz ft bl now).2 = s) ∧
    (∀ (s : TenantState) (i : Nat) (nm ds : List Char) (tg : List Nat) (now : Int),
      isErr (updateFile s i nm ds tg now).1 = true → (updateFile s i nm ds tg now).2 = s) ∧
    (∀ (s : TenantState) (i : Nat) (fid : Option Nat) (now : Int),
      isErr (moveFile s i fid now).1 = true → (moveFile s i fid now).2 = s) ∧
    (∀ (s : TenantState) (i : Nat),
      isErr (deleteFile s i).1 = true → (deleteFile s i).2 = s) ∧
    (∀ (s : TenantState) (nm cl : List Char),
      isErr (createTag s nm cl).1 = true → (createTag s nm cl).2 = s) ∧
    (∀ (s : TenantState) (i : Nat) (nm cl : List Char),
      isErr (updateTag s i nm cl).1 = true → (updateTag s i nm cl).2 = s) ∧
    (∀ (s : TenantState) (i : Nat),
      isErr (deleteTag s i).1 = true → (deleteTag s i).2 = s) := by
  refine ⟨?_, ?_, ?_, ?_, ?_, ?_, ?_, ?_, ?_, ?_, ?_⟩
  · intro s nm pid now
    unfold createFolder
    repeat' split
    all_goals intro h
    all_goals first
      | rfl
      | simp [isErr] at h
  · intro s i nm now
    unfold renameFolder
    repeat' split
    all_goals intro h
    all_goals first
      | rfl
      | simp [isErr] at h
  · intro s i pid now
    unfold moveFolder
    repeat' split
    all_goals intro h
    all_goals first
      | rfl
      | simp [isErr] at h
  · intro s i
    unfold deleteFolder
    repeat' split
    all_goals intro h
    all_goals first
      | rfl
      | simp [isErr] at h
  · intro s nm ds tg fid sz ft bl now
    unfold uploadFile
    repeat' split
    all_goals intro h
    all_goals first
      | rfl
      | simp [isErr] at h
  · intro s i nm ds tg now
    unfold updateFile
    repeat' split
    all_goals intro h
    all_goals first
      | rfl
      | simp [isErr] at h
  · intro s i fid now
    unfold moveFile
    repeat' split
    all_goals intro h
    all_goals first
      | rfl
      | simp [isErr] at h
  · intro s i
    unfold deleteFile
    repeat' split
    all_goals intro h
    all_goals first
      | rfl
      | simp [isErr] at h
  · intro s nm cl
    unfold createTag
    repeat' split
    all_goals intro h
    all_goals first
      | rfl
      | simp [isErr] at h
  · intro s i nm cl
    unfold updateTag
    repeat' split
    all_goals intro h
    all_goals first
      | rfl
      | simp [isErr] at h
  · intro s i
    unfold deleteTag
    repeat' split
    all_goals intro h
    all_goals first
      | rfl
      | simp [isErr] at h

/-- C6 witness: one concrete failing call of each mutation, each leaving
    the empty tenant untouched. -/
theorem C6_failed_mutations_witness :
    (createFolder emptyTenant [] none 0).2 = emptyTenant ∧
    (renameFolder emptyTenant 1 ['a'] 0).2 = emptyTenant ∧
    (moveFolder emptyTenant 1 none 0).2 = emptyTenant ∧
    (deleteFolder emptyTenant 1).2 = emptyTenant ∧
    (uploadFile emptyTenant [] [] [] none 0 [] 0 0).2 = emptyTenant ∧
    (updateFile emptyTenant 1 ['a'] [] [] 0).2 = emptyTenant ∧
    (moveFile emptyTenant 1 none 0).2 = emptyTenant ∧
    (deleteFile emptyTenant 1).2 = emptyTenant ∧
    (createTag emptyTenant [] []).2 = emptyTenant ∧
    (updateTag emptyTenant 1 ['a'] []).2 = emptyTenant ∧
    (deleteTag emptyTenant 1).2 = emptyTenant :=
  ⟨C6_failed_mutations_leave_state_unchanged.1 emptyTenant [] none 0 (by decide),
   C6_failed_mutations_leave_state_unchanged.2.1 emptyTenant 1 ['a'] 0 (by decide),
   C6_failed_mutations_leave_state_unchanged.2.2.1 emptyTenant 1 none 0 (by decide),
   C6_failed_mutations_leave_state_unchanged.2.2.2.1 emptyTenant 1 (by decide),
   C6_failed_mutations_leave_state_unchanged.2.2.2.2.1 emptyTenant [] [] [] none 0 [] 0 0
     (by decide),
   C6_failed_mutations_leave_state_unchanged.2.2.2.2.2.1 emptyTenant 1 ['a'] [] [] 0
     (by decide),
   C6_failed_mutations_leave_state_unchanged.2.2.2.2.2.2.1 emptyTenant 1 none 0 (by decide),
   C6_failed_mutations_leave_state_unchanged.2.2.2.2.2.2.2.1 emptyTenant 1 (by decide),
   C6_failed_mutations_leave_state_unchanged.2.2.2.2.2.2.2.2.1 emptyTenant [] [] (by decide),
   C6_failed_mutations_leave_state_unchanged.2.2.2.2.2.2.2.2.2.1 emptyTenant 1 ['a'] []
     (by decide),
   C6_failed_mutations_leave_state_unchanged.2.2.2.2.2.2.2.2.2.2 emptyTenant 1 (by decide)⟩

/-! ### The fixpoint loops of `deleteFolder` and `getAllFilesInFolder` -/

/-- Ids reachable by the fixpoint expansion: seeded, a root folder (when
    `includeRoot`), or a child of a reached folder. -/
inductive ReachR (ir : Bool) (fs : List Folder) (S0 : List Nat) : Nat → Prop where
  | base (x : Nat) (h : x ∈ S0) : ReachR ir fs S0 x
  | root (f : Folder) (hf : f ∈ fs) (hp : f.parentId = none) (hir : ir = true) :
      ReachR ir fs S0 f.id
  | child (f : Folder) (p : Nat) (hf : f ∈ fs) (hp : f.parentId = some p)
      (hm : ReachR ir fs S0 p) : ReachR ir fs S0 f.id

theorem passStep_sub (ir : Bool) (S : List Nat) (f : Folder) : S ⊆ passStep ir S f := by
  unfold passStep
  split
  · split
    · exact List.subset_append_left S _
    · exact List.Subset.refl S
  · split
    · exact List.subset_append_left S _
    · exact List.Subset.refl S

theorem closurePass_sub (ir : Bool) (fs : List Folder) (S : List Nat) :
    S ⊆ closurePass ir fs S := by
  induction fs generalizing S with
  | nil => exact List.Subset.refl S
  | cons f t ih =>
    unfold closurePass at *
    rw [List.foldl_cons]
    exact (passStep_sub ir S f).trans (ih _)

theorem passStep_eq_or (ir : Bool) (S : List Nat) (f : Folder) :
    passStep ir S f = S ∨ (passStep ir S f = S ++ [f.id] ∧ ¬ f.id ∈ S) := by
  unfold passStep
  split
  · split
    · rename_i h
      exact Or.inr ⟨rfl, h.2⟩
    · exact Or.inl rfl
  · split
    · rename_i h
      exact Or.inr ⟨rfl, h.2⟩
    · exact Or.inl rfl

theorem closurePass_length (ir : Bool) (fs : List Folder) (S : List Nat) :
    S.length ≤ (closurePass ir fs S).length := by
  induction fs generalizing S with
  | nil => exact le_refl _
  | cons f t ih =>
    unfold closurePass at *
    rw [List.foldl_cons]
    refine le_trans ?_ (ih _)
    rcases passStep_eq_or ir S f with h | ⟨h, _⟩ <;> rw [h] <;> simp

theorem closurePass_fix_elem (ir : Bool) (S : List Nat) :
    ∀ fs, closurePass ir fs S = S → ∀ f ∈ fs, passStep ir S f = S := by
  intro fs
  induction fs with
  | nil =>
    intro _ f hf
    cases hf
  | cons g t ih =>
    intro hfix f hf
    unfold closurePass at hfix
    rw [List.foldl_cons] at hfix
    have hlen1 : (passStep ir S g).length ≤ S.length := by
      have h2 := closurePass_length ir t (passStep ir S g)
      unfold closurePass at h2
      rw [hfix] at h2
      exact h2
    have hg : passStep ir S g = S := by
      rcases passStep_eq_or ir S g with h | ⟨h, _⟩
      · exact h
      · rw [h] at hlen1
        simp at hlen1
    rcases List.mem_cons.mp hf with h1 | h1
    · rw [h1]
      exact hg
    · apply ih ?_ f h1
      unfold closurePass
      rw [hg] at hfix
      exact hfix

theorem passStep_fix_parent (ir : Bool) (S : List Nat) (f : Folder)
    (hfix : passStep ir S f = S) :
    (∀ p, f.parentId = some p → p ∈ S → f.id ∈ S) ∧
    (f.parentId = none → ir = true → f.id ∈ S) := by
  constructor
  · intro p hp hpS
    unfold passStep at hfix
    rw [hp] at hfix
    dsimp only at hfix
    by_contra hid
    rw [if_pos ⟨hpS, hid⟩] at hfix
    have := congrArg List.length hfix
    simp at this
  · intro hp hir
    unfold passStep at hfix
    rw [hp] at hfix
    dsimp only at hfix
    by_contra hid
    rw [if_pos ⟨hir, hid⟩] at hfix
    have := congrArg List.length hfix
    simp at this

theorem closurePass_sound (ir : Bool) (fs : List Folder) (S0 : List Nat) :
    ∀ (l : List Folder), (∀ f ∈ l, f ∈ fs) → ∀ (S : List Nat),
      (∀ x ∈ S, ReachR ir fs S0 x) → ∀ x ∈ l.foldl (passStep ir) S, ReachR ir fs S0 x := by
  intro l
  induction l with
  | nil =>
    intro _ S hS x hx
    exact hS x hx
  | cons f t ih =>
    intro hl S hS x hx
    rw [List.foldl_cons] at hx
    refine ih (fun g hg => hl g (List.mem_cons.mpr (Or.inr hg))) _ ?_ x hx
    intro y hy
    unfold passStep at hy
    cases hp : f.parentId with
    | some p =>
      rw [hp] at hy
      dsimp only at hy
      by_cases hc : p ∈ S ∧ ¬ f.id ∈ S
      · rw [if_pos hc] at hy
        rcases List.mem_append.mp hy with h1 | h1
        · exact hS y h1
        · rw [List.mem_singleton] at h1
          subst h1
          exact ReachR.child f p (hl f (List.mem_cons.mpr (Or.inl rfl))) hp (hS p hc.1)
      · rw [if_neg hc] at hy
        exact hS y hy
    | none =>
      rw [hp] at hy
      dsimp only at hy
      by_cases hc : ir = true ∧ ¬ f.id ∈ S
      · rw [if_pos hc] at hy
        rcases List.mem_append.mp hy with h1 | h1
        · exact hS y h1
        · rw [List.mem_singleton] at h1
          subst h1
          exact ReachR.root f (hl f (List.mem_cons.mpr (Or.inl rfl))) hp hc.1
      · rw [if_neg hc] at hy
        exact hS y hy

theorem closureIter_sub (ir : Bool) (fs : List Folder) :
    ∀ fuel S, S ⊆ closureIter ir fs fuel S := by
  intro fuel
  induction fuel with
  | zero =>
    intro S
    exact List.Subset.refl S
  | succ n ih =>
    intro S
    unfold closureIter
    dsimp only
    split
    · exact List.Subset.refl S
    · exact (closurePass_sub ir fs S).trans (ih _)

theorem closureIter_sound (ir : Bool) (fs : List Folder) (S0 : List Nat) :
    ∀ fuel S, (∀ x ∈ S, ReachR ir fs S0 x) →
      ∀ x ∈ closureIter ir fs fuel S, ReachR ir fs S0 x := by
  intro fuel
  induction fuel with
  | zero =>
    intro S hS x hx
    exact hS x hx
  | succ n ih =>
    intro S hS x hx
    unfold closureIter at hx
    dsimp only at hx
    split at hx
    · exact hS x hx
    · exact ih _ (closurePass_sound ir fs S0 fs (fun f hf => hf) S hS) x hx

theorem closurePass_new_mem (ir : Bool) (S : List Nat) :
    ∀ fs, closurePass ir fs S ≠ S →
      ∃ x, x ∈ closurePass ir fs S ∧ ¬ x ∈ S ∧ x ∈ fs.map (fun f => f.id) := by
  intro fs
  induction fs with
  | nil =>
    intro h
    exact absurd rfl h
  | cons f t ih =>
    intro h
    unfold closurePass at h ⊢
    rw [List.foldl_cons] at h ⊢
    rcases passStep_eq_or ir S f with he | ⟨he, hid⟩
    · rw [he] at h ⊢
      obtain ⟨x, h1, h2, h3⟩ := ih h
      exact ⟨x, h1, h2, by simp [List.mem_cons]; right; simpa using h3⟩
    · rw [he] at h ⊢
      exact ⟨f.id, closurePass_sub ir t _ (by simp), hid, by simp⟩

theorem closureIter_fix (ir : Bool) (fs : List Folder) :
    ∀ fuel S, ((fs.map (fun f => f.id)).toFinset \ S.toFinset).card < fuel →
      closurePass ir fs (closureIter ir fs fuel S) = closureIter ir fs fuel S := by
  intro fuel
  induction fuel with
  | zero =>
    intro S h
    omega
  | succ n ih =>
    intro S h
    unfold closureIter
    dsimp only
    split
    · rename_i hstable
      exact hstable
    · rename_i hne
      apply ih
      obtain ⟨x, hx1, hx2, hx3⟩ := closurePass_new_mem ir S fs hne
      have hsub : S ⊆ closurePass ir fs S := closurePass_sub ir fs S
      have hcard : ((fs.map (fun f => f.id)).toFinset \ (closurePass ir fs S).toFinset).card <
          ((fs.map (fun f => f.id)).toFinset \ S.toFinset).card := by
        apply Finset.card_lt_card
        rw [Finset.ssubset_def]
        constructor
        · intro a ha
          rw [Finset.mem_sdiff] at ha ⊢
          exact ⟨ha.1, fun hmem =>
            ha.2 (List.mem_toFinset.mpr (hsub (List.mem_toFinset.mp hmem)))⟩
        · intro hsup
          have hxB : x ∈ (fs.map (fun f => f.id)).toFinset \ S.toFinset := by
            rw [Finset.mem_sdiff]
            exact ⟨List.mem_toFinset.mpr hx3, fun hmem => hx2 (List.mem_toFinset.mp hmem)⟩
          have := hsup hxB
          rw [Finset.mem_sdiff] at this
          exact this.2 (List.mem_toFinset.mpr hx1)
      omega

theorem reach_mem_closureIter (ir : Bool) (fs : List Folder) (S0 : List Nat) (x : Nat)
    (hr : ReachR ir fs S0 x) : x ∈ closureIter ir fs (fs.length + 1) S0 := by
  have hfuel : ((fs.map (fun f => f.id)).toFinset \ S0.toFinset).card < fs.length + 1 := by
    have h1 : ((fs.map (fun f => f.id)).toFinset \ S0.toFinset).card ≤
        (fs.map (fun f => f.id)).toFinset.card :=
      Finset.card_le_card (Finset.sdiff_subset)
    have h2 : (fs.map (fun f => f.id)).toFinset.card ≤ (fs.map (fun f => f.id)).length :=
      List.toFinset_card_le _
    rw [List.length_map] at h2
    omega
  have hfix := closureIter_fix ir fs (fs.length + 1) S0 hfuel
  induction hr with
  | base y hy => exact closureIter_sub ir fs _ S0 hy
  | root f hf hp hir =>
    exact (passStep_fix_parent ir _ f (closurePass_fix_elem ir _ fs hfix f hf)).2 hp hir
  | child f p hf hp hm ih =>
    exact (passStep_fix_parent ir _ f (closurePass_fix_elem ir _ fs hfix f hf)).1 p hp ih

theorem mem_closureIter_iff (ir : Bool) (fs : List Folder) (S0 : List Nat) (x : Nat) :
    x ∈ closureIter ir fs (fs.length + 1) S0 ↔ ReachR ir fs S0 x :=
  ⟨fun h => closureIter_sound ir fs S0 (fs.length + 1) S0 (fun y hy => ReachR.base y hy) x h,
   reach_mem_closureIter ir fs S0 x⟩

/-- The folder `root` itself, or a transitive descendant of it through
    `parentId` links of existing folders. -/
inductive SubtreeMem (fs : List Folder) (root : Nat) : Nat → Prop where
  | self : SubtreeMem fs root root
  | child (f : Folder) (p : Nat) (hf : f ∈ fs) (hp : f.parentId = some p)
      (hm : SubtreeMem fs root p) : SubtreeMem fs root f.id

theorem subtreeMem_iff_reach (fs : List Folder) (root x : Nat) :
    SubtreeMem fs root x ↔ ReachR false fs [root] x := by
  constructor
  · intro h
    induction h with
    | self => exact ReachR.base root (by simp)
    | child f p hf hp hm ih => exact ReachR.child f p hf hp ih
  · intro h
    induction h with
    | base y hy =>
      rw [List.mem_singleton] at hy
      rw [hy]
      exact SubtreeMem.self
    | root f hf hp hir => cases hir
    | child f p hf hp hm ih => exact SubtreeMem.child f p hf hp ih

theorem mem_subtreeClosure_iff (fs : List Folder) (root x : Nat) :
    x ∈ subtreeClosure fs root ↔ SubtreeMem fs root x := by
  unfold subtreeClosure
  rw [mem_closureIter_iff, subtreeMem_iff_reach]

/-- A folder id whose parent chain reaches a root folder through
    existing folders. -/
inductive RootReach (fs : List Folder) : Nat → Prop where
  | root (f : Folder) (hf : f ∈ fs) (hp : f.parentId = none) : RootReach fs f.id
  | child (f : Folder) (p : Nat) (hf : f ∈ fs) (hp : f.parentId = some p)
      (hm : RootReach fs p) : RootReach fs f.id

theorem rootReach_iff (fs : List Folder) (x : Nat) :
    RootReach fs x ↔ ReachR true fs [] x := by
  constructor
  · intro h
    induction h with
    | root f hf hp => exact ReachR.root f hf hp rfl
    | child f p hf hp hm ih => exact ReachR.child f p hf hp ih
  · intro h
    induction h with
    | base y hy => cases hy
    | root f hf hp hir => exact RootReach.root f hf hp
    | child f p hf hp hm ih => exact RootReach.child f p hf hp ih

theorem mem_rootClosure_iff (fs : List Folder) (x : Nat) :
    x ∈ rootClosure fs ↔ RootReach fs x := by
  unfold rootClosure
  rw [mem_closureIter_iff, rootReach_iff]

/-- C4: `deleteFolder F` removes `F`, every transitive descendant
    folder, and every file whose `folderId` lies in that subtree; all
    other folders and files (including root-level files) are untouched,
    and tags are untouched. -/
theorem C4_deleteFolder_removes_subtree :
    ∀ (s : TenantState) (fid : Nat),
      MapWF s.files (fun f => f.id) →
      mContains s.folders fid = true →
      (deleteFolder s fid).1 = .ok () ∧
      (∀ g, SubtreeMem (mValues s.folders) fid g →
        mget (deleteFolder s fid).2.folders g = none) ∧
      (∀ g, ¬ SubtreeMem (mValues s.folders) fid g →
        mget (deleteFolder s fid).2.folders g = mget s.folders g) ∧
      (∀ k f g, mget s.files k = some f → f.folderId = some g →
        SubtreeMem (mValues s.folders) fid g →
        mget (deleteFolder s fid).2.files k = none) ∧
      (∀ k f, mget s.files k = some f →
        (∀ g, f.folderId = some g → ¬ SubtreeMem (mValues s.folders) fid g) →
        mget (deleteFolder s fid).2.files k = some f) ∧
      (∀ k, mget s.files k = none → mget (deleteFolder s fid).2.files k = none) ∧
      (deleteFolder s fid).2.tags = s.tags := by
  intro s fid hwf hcont
  have hnot : ¬(mContains s.folders fid = false) := by
    rw [hcont]
    intro h
    cases h
  have hfk : ∀ g, mget (deleteFolder s fid).2.folders g =
      if g ∈ subtreeClosure (mValues s.folders) fid then none else mget s.folders g := by
    intro g
    unfold deleteFolder
    rw [if_neg hnot]
    dsimp only
    exact mget_foldl_mRemove _ _ _
  have hfl : ∀ k, mget (deleteFolder s fid).2.files k =
      if k ∈ ((mValues s.files).filter (fun f =>
          match f.folderId with
          | some g => decide (g ∈ subtreeClosure (mValues s.folders) fid)
          | none => false)).map (fun f => f.id)
      then none else mget s.files k := by
    intro k
    unfold deleteFolder
    rw [if_neg hnot]
    dsimp only
    exact mget_foldl_mRemove _ _ _
  refine ⟨by unfold deleteFolder; rw [if_neg hnot], ?_, ?_, ?_, ?_, ?_,
    by unfold deleteFolder; rw [if_neg hnot]⟩
  · intro g hg
    rw [hfk g, if_pos ((mem_subtreeClosure_iff _ _ _).mpr hg)]
  · intro g hg
    rw [hfk g, if_neg (fun hmem => hg ((mem_subtreeClosure_iff _ _ _).mp hmem))]
  · intro k f g hk hfg hsub
    rw [hfl k, if_pos ?_]
    rw [List.mem_map]
    refine ⟨f, List.mem_filter.mpr ⟨(mem_values _ _).mpr ⟨k, mget_mem _ _ _ hk⟩, ?_⟩,
      hwf.2 (k, f) (mget_mem _ _ _ hk)⟩
    rw [hfg]
    exact decide_eq_true ((mem_subtreeClosure_iff _ _ _).mpr hsub)
  · intro k f hk hno
    rw [hfl k, if_neg ?_]
    · exact hk
    · rw [List.mem_map]
      rintro ⟨g, hg, hgid⟩
      rw [List.mem_filter] at hg
      obtain ⟨j, hj⟩ := (mem_values _ _).mp hg.1
      have hjid : g.id = j := hwf.2 (j, g) hj
      have hgk : mget s.files k = some g := by
        rw [← hgid, hjid]
        exact mem_mget _ hwf.1 j g hj
      rw [hk, Option.some.injEq] at hgk
      subst hgk
      cases hfg : f.folderId with
      | none =>
        rw [hfg] at hg
        obtain ⟨_, hcond⟩ := hg
        cases hcond
      | some gg =>
        obtain ⟨_, hcond⟩ := hg
        rw [hfg] at hcond
        dsimp only at hcond
        rw [decide_eq_true_eq] at hcond
        exact hno gg hfg ((mem_subtreeClosure_iff _ _ _).mp hcond)
  · intro k hk
    rw [hfl k]
    split
    · rfl
    · exact hk

def c4folder1 : Folder :=
  { id := 1, name := ['a'], parentId := none, createdDate := 0, modifiedDate := 0 }

def c4folder2 : Folder :=
  { id := 2, name := ['b'], parentId := some 1, createdDate := 0, modifiedDate := 0 }

def c4file7 : FileMetadata :=
  { id := 7, name := ['x'], description := [], tagIds := [], folderId := some 2,
    size := 0, uploadDate := 0, modifiedDate := 0, fileType := [], blob := 0 }

def c4file8 : FileMetadata :=
  { id := 8, name := ['y'], description := [], tagIds := [], folderId := none,
    size := 0, uploadDate := 0, modifiedDate := 0, fileType := [], blob := 0 }

def c4state : TenantState :=
  { emptyTenant with
      folders := [(1, c4folder1), (2, c4folder2)],
      files := [(7, c4file7), (8, c4file8)] }

theorem C4_deleteFolder_removes_subtree_witness :
    mget (deleteFolder c4state 1).2.folders 2 = none ∧
    mget (deleteFolder c4state 1).2.files 7 = none ∧
    mget (deleteFolder c4state 1).2.files 8 = some c4file8 :=
  have h := C4_deleteFolder_removes_subtree c4state 1 (by decide) (by decide)
  have hsub : SubtreeMem (mValues c4state.folders) 1 2 :=
    SubtreeMem.child c4folder2 1 (by decide) rfl SubtreeMem.self
  ⟨h.2.1 2 hsub,
   h.2.2.2.1 7 c4file7 2 (by decide) rfl hsub,
   h.2.2.2.2.1 8 c4file8 (by decide) (fun g hg => Option.noConfusion hg)⟩

/-- Fixtures for the C10 counterexample: two folders forming a
    parent-cycle, and a file inside one of them. The file-referential
    invariant holds (folder 1 exists), yet the root-seeded fixpoint of
    `getAllFilesInFolder(none)` never reaches the cycle. -/
def c10folderA : Folder :=
  { id := 1, name := ['a'], parentId := some 2, createdDate := 0, modifiedDate := 0 }

def c10folderB : Folder :=
  { id := 2, name := ['b'], parentId := some 1, createdDate := 0, modifiedDate := 0 }

def c10file : FileMetadata :=
  { id := 5, name := ['c'], description := [], tagIds := [], folderId := some 1,
    size := 0, uploadDate := 0, modifiedDate := 0, fileType := [], blob := 0 }

def c10state : TenantState :=
  { emptyTenant with
      folders := [(1, c10folderA), (2, c10folderB)],
      files := [(5, c10file)] }

/-- C10 counterexample: a tenant state satisfying the claim's stated
    hypothesis (every file's `folderId` names an existing folder or is
    `none`) on which `getAllFilesInFolder(none)` differs from
    `getAllFiles`. -/
theorem C10_counterexample :
    (∀ f ∈ mValues c10state.files, ∀ g, f.folderId = some g →
      ∃ fl ∈ mValues c10state.folders, fl.id = g) ∧
    getAllFilesInFolder c10state none ≠ getAllFiles c10state := by
  constructor
  · decide
  · decide

/-- C10 (amended): if additionally every folder's parent chain reaches a
    root folder (no cycles, no dangling parents), then
    `getAllFilesInFolder(none)` returns exactly `getAllFiles`. -/
theorem C10_all_files_in_root_eq_amended :
    ∀ (s : TenantState),
      (∀ f ∈ mValues s.files, ∀ g, f.folderId = some g →
        ∃ fl ∈ mValues s.folders, fl.id = g) →
      (∀ fl ∈ mValues s.folders, RootReach (mValues s.folders) fl.id) →
      getAllFilesInFolder s none = getAllFiles s := by
  intro s href hroot
  unfold getAllFilesInFolder getAllFiles
  dsimp only
  apply List.filter_eq_self.mpr
  intro f hf
  cases hfg : f.folderId with
  | none =>
    rfl
  | some g =>
    obtain ⟨fl, hfl, hflid⟩ := href f hf g hfg
    have hreach : RootReach (mValues s.folders) g := hflid ▸ hroot fl hfl
    dsimp only
    apply decide_eq_true
    have hm := (mem_rootClosure_iff (mValues s.folders) g).mpr hreach
    unfold rootClosure at hm
    exact hm

theorem C10_all_files_in_root_eq_amended_witness :
    getAllFilesInFolder c4state none = getAllFiles c4state :=
  C10_all_files_in_root_eq_amended c4state (by decide) (by
    intro fl hfl
    have hv : mValues c4state.folders = [c4folder1, c4folder2] := by decide
    rw [hv] at hfl
    have hroot1 : RootReach (mValues c4state.folders) 1 :=
      RootReach.root c4folder1 (by decide) rfl
    rcases List.mem_cons.mp hfl with h | h
    · rw [h]
      exact hroot1
    · rcases List.mem_cons.mp h with h2 | h2
      · rw [h2]
        exact RootReach.child c4folder2 1 (by decide) rfl hroot1
      · cases h2)

/-! ### The ancestor walk -/

/-- If the walk reports `true`, the candidate parent really lies in the
    moved folder's subtree. -/
theorem checkAncestorGo_sound (folders : M Folder) (anc : Nat)
    (hwf : MapWF folders (fun f => f.id)) :
    ∀ fuel (cur : Option Nat), checkAncestorGo folders anc cur fuel = .ok true →
      ∀ x, cur = some x → SubtreeMem (mValues folders) anc x := by
  intro fuel
  induction fuel with
  | zero =>
    intro cur h x hx
    simp [checkAncestorGo] at h
  | succ n ih =>
    intro cur h x hx
    subst hx
    unfold checkAncestorGo at h
    by_cases he : x = anc
    · rw [he]
      exact SubtreeMem.self
    · rw [if_neg he] at h
      cases hm : mget folders x with
      | none =>
        rw [hm] at h
        simp at h
      | some folder =>
        rw [hm] at h
        dsimp only at h
        cases hp : folder.parentId with
        | none =>
          rw [hp] at h
          cases n <;> simp [checkAncestorGo] at h
        | some p =>
          have hsub := ih folder.parentId h p hp
          have hfv : folder ∈ mValues folders := (mem_values _ _).mpr ⟨x, mget_mem _ _ _ hm⟩
          have hfid : folder.id = x := hwf.2 (x, folder) (mget_mem _ _ _ hm)
          rw [← hfid]
          exact SubtreeMem.child folder p hfv hp hsub

/-- If the candidate parent lies in the moved folder's subtree, the walk
    never reports `false` (it reports `true` or traps on the cap). -/
theorem checkAncestorGo_not_false (folders : M Folder) (anc : Nat)
    (hwf : MapWF folders (fun f => f.id)) (x : Nat)
    (hsub : SubtreeMem (mValues folders) anc x) :
    ∀ fuel, checkAncestorGo folders anc (some x) fuel ≠ .ok false := by
  induction hsub with
  | self =>
    intro fuel h
    cases fuel with
    | zero => simp [checkAncestorGo] at h
    | succ n =>
      unfold checkAncestorGo at h
      rw [if_pos rfl] at h
      simp at h
  | child f p hf hp hm ih =>
    intro fuel h
    cases fuel with
    | zero => simp [checkAncestorGo] at h
    | succ n =>
      unfold checkAncestorGo at h
      by_cases he : f.id = anc
      · rw [if_pos he] at h
        simp at h
      · rw [if_neg he] at h
        have hget : mget folders f.id = some f := by
          obtain ⟨k, hk⟩ := (mem_values _ _).mp hf
          have hik : f.id = k := hwf.2 (k, f) hk
          rw [hik]
          exact mem_mget _ hwf.1 k f hk
        rw [hget] at h
        dsimp only at h
        rw [hp] at h
        exact ih n h

/-- C3 (amended): given that the moved folder `i` exists, `moveFolder`
    with a `none` target succeeds; with a `some p` target it succeeds
    exactly when `p` exists, `p ≠ i`, and the capped ancestor walk from
    `p` completes with `false`. The walk's `true` answers are exactly
    subtree membership, and on subtree members the walk never answers
    `false` — but it can trap with `depthExceeded` on long chains even
    when `p` is not a descendant of `i`. -/
theorem C3_moveFolder_amended :
    ∀ (s : TenantState) (i p : Nat) (now : Int),
      mContains s.folders i = true →
      isErr (moveFolder s i none now).1 = false ∧
      (isErr (moveFolder s i (some p) now).1 = false ↔
        (mContains s.folders p = true ∧ ¬ i = p ∧
          checkAncestor s.folders i (some p) 0 = .ok false)) ∧
      (MapWF s.folders (fun f => f.id) →
        checkAncestor s.folders i (some p) 0 = .ok true →
        SubtreeMem (mValues s.folders) i p) ∧
      (MapWF s.folders (fun f => f.id) →
        SubtreeMem (mValues s.folders) i p →
        checkAncestor s.folders i (some p) 0 ≠ .ok false) := by
  intro s i p now hcont
  obtain ⟨folder, hfolder⟩ : ∃ f, mget s.folders i = some f := by
    unfold mContains at hcont
    cases hm : mget s.folders i with
    | none =>
      rw [hm] at hcont
      cases hcont
    | some f => exact ⟨f, rfl⟩
  refine ⟨?_, ⟨?_, ?_⟩, ?_, ?_⟩
  · unfold moveFolder
    rw [if_neg (by simp [folderExistsOpt])]
    dsimp only
    rw [hfolder]
    rfl
  · intro hok
    unfold moveFolder at hok
    by_cases hex : folderExistsOpt s (some p) = false
    · rw [if_pos hex] at hok
      simp [isErr] at hok
    · rw [if_neg hex] at hok
      dsimp only at hok
      have hexists : mContains s.folders p = true := by
        unfold folderExistsOpt at hex
        simpa using hex
      by_cases hip : i = p
      · rw [if_pos hip] at hok
        simp [isErr] at hok
      · rw [if_neg hip] at hok
        cases hanc : isAncestor s i p with
        | error e =>
          rw [hanc] at hok
          simp [isErr] at hok
        | ok b =>
          cases b with
          | true =>
            rw [hanc] at hok
            simp [isErr] at hok
          | false =>
            unfold isAncestor at hanc
            exact ⟨hexists, hip, hanc⟩
  · rintro ⟨hex, hip, hanc⟩
    unfold moveFolder
    rw [if_neg (by simp [folderExistsOpt, hex])]
    dsimp only
    rw [if_neg hip]
    unfold isAncestor
    rw [hanc]
    dsimp only
    rw [hfolder]
    rfl
  · intro hwf hanc
    unfold checkAncestor at hanc
    exact checkAncestorGo_sound s.folders i hwf _ (some p) hanc p rfl
  · intro hwf hsub
    unfold checkAncestor
    exact checkAncestorGo_not_false s.folders i hwf p hsub _

/-- 101 committed `createFolder` calls, each nesting a folder `'a'`
    under the previous one (folder n+1 has parent n). -/
def mkChain : Nat → TenantState
  | 0 => emptyTenant
  | n + 1 => (createFolder (mkChain n) ['a'] (if n = 0 then none else some n) 0).2

/-- One more committed `createFolder` at the root (id 102). -/
def chainPlus : TenantState := (createFolder (mkChain 101) ['b'] none 0).2

/-- C3 counterexample: in the reachable state `chainPlus`, folder 102
    exists at the root and folder 101 exists, `101 ≠ 102`, `101` is not
    a descendant of `102`, yet `moveFolder 102 (some 101)` fails (the
    ancestor walk from 101 traps on the depth cap) — so "succeeds for
    any other existing folder P" is false on the code. -/
theorem C3_counterexample :
    mContains chainPlus.folders 102 = true ∧
    mContains chainPlus.folders 101 = true ∧
    ¬ (102 = 101) ∧
    ¬ SubtreeMem (mValues chainPlus.folders) 102 101 ∧
    isErr (moveFolder chainPlus 102 (some 101) 0).1 = true := by
  refine ⟨by decide, by decide, by decide, ?_, by decide⟩
  intro hsub
  have hmem := (mem_subtreeClosure_iff (mValues chainPlus.folders) 102 101).mpr hsub
  revert hmem
  decide

/-- C3 amended witness at a concrete state: folder 2 exists under folder
    1, and `moveFolder 2 none` succeeds. -/
theorem C3_moveFolder_amended_witness :
    isErr (moveFolder c4state 2 none 0).1 = false :=
  (C3_moveFolder_amended c4state 2 1 0 (by decide)).1

/-- Length of the ancestor chain from a folder up to the root
    (claim-side measure of nesting depth). -/
def specChainLen (folders : M Folder) : Option Nat → Nat → Nat
  | _, 0 => 0
  | none, _ + 1 => 0
  | some i, fuel + 1 =>
    match mget folders i with
    | none => 0
    | some f => 1 + specChainLen folders f.parentId fuel

/-- C2 counterexample: after 101 committed `createFolder` mutations
    (`mkChain 101`; its folder count shows all 101 committed), folder
    101 has an ancestor chain of length 101 > 100 — `createFolder`
    enforces no depth limit. -/
theorem C2_counterexample :
    (mkChain 101).folders.length = 101 ∧
    specChainLen (mkChain 101).folders (some 101) 200 = 101 ∧
    100 < specChainLen (mkChain 101).folders (some 101) 200 := by
  refine ⟨by decide, by decide, by decide⟩

/-- C2 (amended): `createFolder` succeeds whenever the parent exists and
    the name is nonempty, regardless of the parent's depth; the
    100-step cap is enforced only as a trap inside the ancestor walks
    (`moveFolder`'s cycle check and the path builder), not maintained as
    an invariant by the mutations. -/
theorem C2_createFolder_no_depth_check_amended :
    ∀ (s : TenantState) (nm : List Char) (pid : Option Nat) (now : Int),
      folderExistsOpt s pid = true → ¬ nm = [] →
      isErr (createFolder s nm pid now).1 = false := by
  intro s nm pid now h1 h2
  unfold createFolder
  rw [if_neg (by rw [h1]; simp), if_neg h2]
  rfl

/-- C2 amended witness: creating a child of the depth-101 folder still
    succeeds. -/
theorem C2_createFolder_no_depth_check_amended_witness :
    isErr (createFolder (mkChain 101) ['a'] (some 101) 0).1 = false :=
  C2_createFolder_no_depth_check_amended (mkChain 101) ['a'] (some 101) 0
    (by decide) (by decide)

/-- Three committed `createFolder` calls at the root. -/
def dupA : TenantState := (createFolder emptyTenant " (00)".toList none 0).2

def dupB : TenantState := (createFolder dupA " (1)".toList none 0).2

def dupC : TenantState := (createFolder dupB " (00)".toList none 0).2

/-- C1: the unique-name invariant is the code's clear intent
    (`getUniqueFolderName`, "Find unique folder name"), but the code
    breaks it: committing `createFolder " (00)"`, `createFolder " (1)"`,
    then `createFolder " (00)"` at the root leaves two live folders
    (ids 2 and 3), both at the root, both named `" (1)"` — a
    case-insensitive duplicate. The parse of `" (00)"` yields base `""`
    with suffix 0, so the scan produces suffix 1, and the sibling
    `" (1)"` (too short for the suffix grammar) is never counted. -/
theorem C1_unique_names_violated :
    isErr (createFolder emptyTenant " (00)".toList none 0).1 = false ∧
    isErr (createFolder dupA " (1)".toList none 0).1 = false ∧
    isErr (createFolder dupB " (00)".toList none 0).1 = false ∧
    (mget dupC.folders 2).map (fun f => (f.name, f.parentId)) =
      some (" (1)".toList, none) ∧
    (mget dupC.folders 3).map (fun f => (f.name, f.parentId)) =
      some (" (1)".toList, none) := by
  refine ⟨by decide, by decide, by decide, by decide, by decide⟩

/-- Reachable fixture for C7: upload "photo.jpg" (id 1) and "old.txt"
    (id 2) at the root. -/
def c7sB : TenantState :=
  (uploadFile (uploadFile emptyTenant "photo.jpg".toList [] [] none 0 [] 0 0).2
    "old.txt".toList [] [] none 0 [] 0 0).2

/-- Then also upload "photo (1).jpg" (id 3). -/
def c7sC : TenantState :=
  (uploadFile c7sB "photo (1).jpg".toList [] [] none 0 [] 0 0).2

def resName (r : Except Err FileMetadata) : Option (List Char) :=
  match r with
  | .ok f => some f.name
  | .error _ => none

/-- C7: renaming file 2 to "photo.jpg" while a different file
    "photo.jpg" exists yields "photo (1).jpg"; renaming file 2 to
    "photo (1).jpg" in a folder holding "photo.jpg" and
    "photo (1).jpg" (different files) yields "photo (2).jpg". -/
theorem C7_rename_collision_suffixes :
    resName (updateFile c7sB 2 "photo.jpg".toList [] [] 5).1 =
      some "photo (1).jpg".toList ∧
    resName (updateFile c7sC 2 "photo (1).jpg".toList [] [] 5).1 =
      some "photo (2).jpg".toList := by
  refine ⟨by decide, by decide⟩

/-- C9: `searchFilesWithTags` returns everything when both criteria are
    empty, and otherwise exactly the files matching
    `(term empty OR name/description/some-existing-tag-name contains the
    term case-insensitively) AND (tag filter empty OR the file carries
    at least one requested tag id)`. -/
theorem C9_search_characterization :
    ∀ (s : TenantState) (term : List Char) (ftags : List Nat) (f : FileMetadata),
      f ∈ searchFilesWithTags s term ftags ↔
        (f ∈ mValues s.files ∧
          (term = [] ∨ textContainsIgnoreCase f.name term = true ∨
            textContainsIgnoreCase f.description term = true ∨
            (∃ tid ∈ f.tagIds, ∃ tag, mget s.tags tid = some tag ∧
              textContainsIgnoreCase tag.name term = true)) ∧
          (ftags = [] ∨ ∃ t ∈ ftags, t ∈ f.tagIds)) := by
  intro s term ftags f
  unfold searchFilesWithTags
  dsimp only
  by_cases hboth : ¬ term ≠ [] ∧ ¬ (ftags.length > 0)
  · rw [if_pos hboth]
    have ht : term = [] := not_not.mp hboth.1
    have hf : ftags = [] := by
      have h2 := hboth.2
      cases ftags with
      | nil => rfl
      | cons a t =>
        exfalso
        apply h2
        simp
    constructor
    · intro hmem
      exact ⟨hmem, Or.inl ht, Or.inl hf⟩
    · intro h
      exact h.1
  · rw [if_neg hboth]
    rw [List.mem_filter]
    constructor
    · rintro ⟨hmem, hcond⟩
      rw [Bool.and_eq_true] at hcond
      rcases hcond with ⟨h1, h2⟩
      refine ⟨hmem, ?_, ?_⟩
      · by_cases ht : term = []
        · exact Or.inl ht
        · rw [if_neg ht] at h1
          rw [Bool.or_eq_true, Bool.or_eq_true] at h1
          rcases h1 with (h | h) | h
          · exact Or.inr (Or.inl h)
          · exact Or.inr (Or.inr (Or.inl h))
          · right
            right
            right
            rw [List.any_eq_true] at h
            obtain ⟨tid, htid, htag⟩ := h
            refine ⟨tid, htid, ?_⟩
            cases hmg : mget s.tags tid with
            | none =>
              rw [hmg] at htag
              cases htag
            | some tag =>
              rw [hmg] at htag
              exact ⟨tag, rfl, htag⟩
      · by_cases hfe : ftags = []
        · exact Or.inl hfe
        · rw [if_neg hfe] at h2
          right
          rw [List.any_eq_true] at h2
          obtain ⟨t, htmem, hany⟩ := h2
          rw [List.any_eq_true] at hany
          obtain ⟨x, hx, hbeq⟩ := hany
          rw [beq_iff_eq] at hbeq
          exact ⟨t, htmem, by rw [← hbeq]; exact hx⟩
    · rintro ⟨hmem, hsearch, htags⟩
      refine ⟨hmem, ?_⟩
      rw [Bool.and_eq_true]
      constructor
      · by_cases ht : term = []
        · rw [if_pos ht]
        · rw [if_neg ht]
          rw [Bool.or_eq_true, Bool.or_eq_true]
          rcases hsearch with h | h | h | h
          · exact absurd h ht
          · exact Or.inl (Or.inl h)
          · exact Or.inl (Or.inr h)
          · right
            rw [List.any_eq_true]
            obtain ⟨tid, htid, tag, hmg, hc⟩ := h
            exact ⟨tid, htid, by rw [hmg]; exact hc⟩
      · by_cases hfe : ftags = []
        · rw [if_pos hfe]
        · rw [if_neg hfe]
          rcases htags with h | h
          · exact absurd h hfe
          · obtain ⟨t, ht1, ht2⟩ := h
            rw [List.any_eq_true]
            exact ⟨t, ht1, List.any_eq_true.mpr ⟨t, ht2, beq_self_eq_true t⟩⟩

end Folderly
